import Mathlib

/-
Verification of the Code Call-Graph (CCG) subsystem of the Jaseci repository.

The development shallowly embeds the Python sources:
  - codebase_genius/BE/unified_api.py   (relationship query engine)
  - codebase_genius/BE/ccg_builder.py   (extractors and graph assembly)
  - codebase_genius/BE/post_process.py  (cleanup allow-list)
Strings are modelled as Lean `String` (ASCII fragment of Python's unicode
strings); Python string helpers are re-implemented over `List Char` so that
all definitions evaluate inside the kernel.
-/

namespace CCG

/-! ## Python string helpers (ASCII model) -/

/-- Python `str.lower()` on one ASCII character. -/
def lowerChar (c : Char) : Char :=
  if 65 ≤ c.toNat ∧ c.toNat ≤ 90 then Char.ofNat (c.toNat + 32) else c

/-- Python `str.lower()`. -/
def pyLower (s : String) : String := ⟨s.data.map lowerChar⟩

/-- Python `str.endswith(suffix)`. -/
def pyEndsWith (s sfx : String) : Bool := sfx.data.isSuffixOf s.data

/-- Python `str.split(sep)` for a one-character separator: splits at every
occurrence, never collapsing, always returning a non-empty list. -/
def pySplitChar (sep : Char) : List Char → List (List Char)
  | [] => [[]]
  | c :: cs =>
    if c = sep then [] :: pySplitChar sep cs
    else
      match pySplitChar sep cs with
      | [] => [[c]]
      | h :: t => (c :: h) :: t

/-- Last element of a `split` result (Python's `[-1]`; the list is never
empty, so the default is unreachable). -/
def pyLastPart (ls : List (List Char)) : List Char := ls.getLastD []

/-- Lexicographic comparison of character lists by code point, mirroring
Python's `str` ordering on ASCII strings. -/
def charListLe : List Char → List Char → Bool
  | [], _ => true
  | _ :: _, [] => false
  | c :: cs, d :: ds =>
    if c.toNat < d.toNat then true
    else if d.toNat < c.toNat then false
    else charListLe cs ds

/-- Python's `<=` on strings, as a decidable relation usable by
`List.insertionSort` (a stable sort, hence extensionally equal to Python's
stable `sorted`). -/
def pyStrLe (a b : String) : Prop := charListLe a.data b.data = true

instance : DecidableRel pyStrLe := fun a b => by unfold pyStrLe; infer_instance

/-! ## Data model (graph artifact of ccg_builder.py / unified_api.py) -/

/-- One CCG node, as stored in the `nodes` array of `ccg.json`:
`{"id", "type" ("function" | "class"), "name", "module", "lineno"?}`. -/
structure Node where
  id : String
  type : String
  name : String
  module : String
  lineno : Option Nat := none
deriving Repr, DecidableEq

/-- One CCG edge `{"from", "to", "label"}`.  `frm` and `to_` render Python's
`from`/`to` keys (Lean keywords); `to_` is the raw, unresolved callee text. -/
structure Edge where
  frm : String
  to_ : String
  label : String
deriving Repr, DecidableEq

/-! ## Relationship query engine (unified_api.py, query_relationships) -/

/-- Keys of `node_map = {n["id"]: n for n in nodes}` in iteration order:
first occurrence of each id (later duplicates overwrite the value but keep
the original key position). -/
def nodeMapKeys (nodes : List Node) : List String :=
  nodes.foldl (fun acc n => if n.id ∈ acc then acc else acc ++ [n.id]) []

/-- Value lookup in `node_map`: the dict keeps the last write for a key. -/
def nodeMapGet (nodes : List Node) (k : String) : Option Node :=
  nodes.reverse.find? (fun n => n.id = k)

/-- The three-rule name matching of `query_relationships` applied to one
node id (lines 112-125 of unified_api.py): exact, `:`/`.`-suffix, and
bare-name match, all case-insensitive. -/
def matchesQuery (q nid : String) : Bool :=
  let ql := pyLower q
  let il := pyLower nid
  il == ql
  || pyEndsWith il (":" ++ ql) || pyEndsWith il ("." ++ ql)
  || pyLower ⟨pyLastPart (pySplitChar '.' (pyLastPart (pySplitChar ':' nid.data)))⟩ == ql

/-- The `matches` list accumulated over `node_map.keys()`. -/
def queryMatches (q : String) (nodes : List Node) : List String :=
  (nodeMapKeys nodes).filter (matchesQuery q)

/-- The `candidates` payload of the 404 branch:
`sorted([n["id"] for n in nodes if n.get("type") == "function"])[:50]`. -/
def ccgCandidates (nodes : List Node) : List String :=
  (List.insertionSort pyStrLe
    ((nodes.filter (fun n => n.type == "function")).map (fun n => n.id))).take 50

/-- Lookup `callees_map.get(x, [])`: the `to` texts of edges whose `from` equals
`x` literally, skipping edges with falsy (empty) `from`/`to`. -/
def calleesMapGet (edges : List Edge) (x : String) : List String :=
  (edges.filter (fun e => !(e.frm == "") && !(e.to_ == "") && e.frm == x)).map (fun e => e.to_)

/-- Lookup `callers_map.get(x, [])`: the `from` ids of edges whose `to` equals `x`
literally, skipping edges with falsy (empty) `from`/`to`. -/
def callersMapGet (edges : List Edge) (x : String) : List String :=
  (edges.filter (fun e => !(e.frm == "") && !(e.to_ == "") && e.to_ == x)).map (fun e => e.frm)

/-- Neighbor function selected by the traversal direction flag
(`forward=True` uses `callees_map`, else `callers_map`). -/
def adjOf (edges : List Edge) (fwd : Bool) : String → List String :=
  if fwd then calleesMapGet edges else callersMapGet edges

/-- One entry of the `results` dict of `traverse_graph`. -/
structure RItem where
  id : String
  name : String
  type : String
  module : String
  depth : Nat
deriving Repr, DecidableEq

/-- Metadata recorded for a newly discovered neighbor (depth `d + 1`),
defaulting to the raw string and kind "unknown" for dangling references. -/
def mkRItem (nmap : String → Option Node) (nb : String) (d : Nat) : RItem :=
  match nmap nb with
  | some info => { id := nb, name := info.name, type := info.type, module := info.module, depth := d + 1 }
  | none => { id := nb, name := nb, type := "unknown", module := "unknown", depth := d + 1 }

/-- Inner `for neighbor in neighbors` loop of `traverse_graph`: record each
neighbor not yet in `results` at depth `d + 1` and add it to the next
frontier (a set, modelled as a duplicate-free insertion list). -/
def addNeighbors (nmap : String → Option Node) (d : Nat) :
    List String → List RItem → List String → List RItem × List String
  | [], results, next => (results, next)
  | nb :: rest, results, next =>
    let results' := if nb ∈ results.map (fun r => r.id) then results else results ++ [mkRItem nmap nb d]
    let next' := if nb ∈ next then next else next ++ [nb]
    addNeighbors nmap d rest results' next'

/-- Middle `for node in frontier` loop of `traverse_graph` at level `d`:
skip visited nodes, otherwise mark visited and expand the neighbor list. -/
def stepLevel (adj : String → List String) (nmap : String → Option Node) (d : Nat) :
    List String → List String → List RItem → List String →
    List String × List RItem × List String
  | [], visited, results, next => (visited, results, next)
  | node :: rest, visited, results, next =>
    if node ∈ visited then stepLevel adj nmap d rest visited results next
    else
      let rn := addNeighbors nmap d (adj node) results next
      stepLevel adj nmap d rest (visited ++ [node]) rn.1 rn.2

/-- Outer `for d in range(max_depth)` loop of `traverse_graph`:
`k` levels remain and `d` is the current level index. -/
def traverseLoop (adj : String → List String) (nmap : String → Option Node) :
    Nat → Nat → List String → List String → List RItem → List RItem
  | 0, _, _, _, results => results
  | k + 1, d, frontier, visited, results =>
    let vrn := stepLevel adj nmap d frontier visited results []
    traverseLoop adj nmap k (d + 1) vrn.2.2 vrn.1 vrn.2.1

/-- Model of `traverse_graph(start_node, forward, max_depth)` of unified_api.py
(lines 163-198), parameterized by the direction's adjacency function. -/
def traverse_graph (adj : String → List String) (nmap : String → Option Node)
    (start : String) (maxDepth : Nat) : List RItem :=
  traverseLoop adj nmap maxDepth 0 [start] [] []

/-- Metadata of one element of the `matches` response array. -/
structure MatchInfo where
  id : String
  name : String
  type : String
  module : String
deriving Repr, DecidableEq

/-- Response payload of a successful relationship query. -/
structure QueryResult where
  matches_ : List MatchInfo
  callees : Option (List (String × List RItem))
  callers : Option (List (String × List RItem))
deriving Repr, DecidableEq

/-- Outcome of `query_relationships` after the artifact has been read:
either the 404 `NotFound` payload carrying the candidate list, or a result. -/
inductive QueryOutcome where
  | notFound (candidates : List String)
  | ok (res : QueryResult)
deriving Repr, DecidableEq

/-- Construction of one `matches` entry (lines 208-216 of unified_api.py). -/
def mkMatchInfo (nodes : List Node) (m : String) : MatchInfo :=
  match nodeMapGet nodes m with
  | some n => { id := m, name := n.name, type := n.type, module := n.module }
  | none => { id := m, name := m, type := "unknown", module := "unknown" }

/-- The query pipeline of `query_relationships` (unified_api.py lines
101-229) over an in-memory graph: name resolution, 404 with candidates on
zero matches, then per-match bounded traversal in the requested
direction(s). -/
def query_relationships (nodes : List Node) (edges : List Edge)
    (function : String) (direction : String) (depth : Nat) : QueryOutcome :=
  let ms := queryMatches function nodes
  if ms.isEmpty then
    .notFound (ccgCandidates nodes)
  else
    let nmap := nodeMapGet nodes
    let callees :=
      if direction == "both" || direction == "callees" then
        some (ms.map (fun m => (m, traverse_graph (calleesMapGet edges) nmap m depth)))
      else none
    let callers :=
      if direction == "both" || direction == "callers" then
        some (ms.map (fun m => (m, traverse_graph (callersMapGet edges) nmap m depth)))
      else none
    .ok { matches_ := ms.map (mkMatchInfo nodes), callees := callees, callers := callers }


/-! ## Helper lemmas: node-map keys -/

theorem foldlIns_mem (nodes : List Node) :
    ∀ (acc : List String) (x : String),
      (x ∈ nodes.foldl (fun acc n => if n.id ∈ acc then acc else acc ++ [n.id]) acc) ↔
        (x ∈ acc ∨ ∃ n ∈ nodes, n.id = x) := by
  induction nodes with
  | nil => intro acc x; simp
  | cons n rest ih =>
    intro acc x
    simp only [List.foldl_cons]
    rw [ih]
    by_cases h : n.id ∈ acc
    · simp only [if_pos h]
      constructor
      · rintro (hx | hx)
        · exact Or.inl hx
        · right; obtain ⟨m, hm, hid⟩ := hx; exact ⟨m, List.mem_cons_of_mem _ hm, hid⟩
      · rintro (hx | ⟨m, hm, hid⟩)
        · exact Or.inl hx
        · rcases List.mem_cons.mp hm with rfl | hm'
          · exact Or.inl (hid ▸ h)
          · exact Or.inr ⟨m, hm', hid⟩
    · simp only [if_neg h, List.mem_append, List.mem_singleton]
      constructor
      · rintro ((hx | rfl) | hx)
        · exact Or.inl hx
        · exact Or.inr ⟨n, List.mem_cons_self _ _, rfl⟩
        · right; obtain ⟨m, hm, hid⟩ := hx; exact ⟨m, List.mem_cons_of_mem _ hm, hid⟩
      · rintro (hx | ⟨m, hm, hid⟩)
        · exact Or.inl (Or.inl hx)
        · rcases List.mem_cons.mp hm with rfl | hm'
          · exact Or.inl (Or.inr hid.symm)
          · exact Or.inr ⟨m, hm', hid⟩

theorem foldlIns_nodup (nodes : List Node) :
    ∀ acc : List String, acc.Nodup →
      (nodes.foldl (fun acc n => if n.id ∈ acc then acc else acc ++ [n.id]) acc).Nodup := by
  induction nodes with
  | nil => intro acc h; simpa using h
  | cons n rest ih =>
    intro acc h
    simp only [List.foldl_cons]
    by_cases hm : n.id ∈ acc
    · simpa [if_pos hm] using ih acc h
    · refine ih _ ?_
      simp [List.nodup_append, h, hm]

theorem nodeMapKeys_mem (nodes : List Node) (x : String) :
    x ∈ nodeMapKeys nodes ↔ ∃ n ∈ nodes, n.id = x := by
  unfold nodeMapKeys
  rw [foldlIns_mem]
  simp

theorem nodeMapKeys_nodup (nodes : List Node) : (nodeMapKeys nodes).Nodup :=
  foldlIns_nodup nodes [] List.nodup_nil

/-! ## Helper lemmas: the lexicographic order and the candidates payload -/

theorem charListLe_total : ∀ l₁ l₂ : List Char, charListLe l₁ l₂ = true ∨ charListLe l₂ l₁ = true := by
  intro l₁
  induction l₁ with
  | nil => intro l₂; left; rfl
  | cons c cs ih =>
    intro l₂
    cases l₂ with
    | nil => right; rfl
    | cons d ds =>
      simp only [charListLe]
      rcases Nat.lt_trichotomy c.toNat d.toNat with h | h | h
      · left; simp [h]
      · have h1 : ¬ c.toNat < d.toNat := by omega
        have h2 : ¬ d.toNat < c.toNat := by omega
        simpa [h1, h2] using ih ds
      · right; simp [h]

theorem charListLe_trans :
    ∀ l₁ l₂ l₃ : List Char, charListLe l₁ l₂ = true → charListLe l₂ l₃ = true →
      charListLe l₁ l₃ = true := by
  intro l₁
  induction l₁ with
  | nil => intro l₂ l₃ _ _; rfl
  | cons c cs ih =>
    intro l₂ l₃ h12 h23
    cases l₂ with
    | nil => simp [charListLe] at h12
    | cons d ds =>
      cases l₃ with
      | nil => simp [charListLe] at h23
      | cons e es =>
        simp only [charListLe] at h12 h23 ⊢
        split_ifs at h12 h23 ⊢ <;>
          first
          | rfl
          | (exact ih ds es h12 h23)
          | (exfalso; omega)

instance : IsTotal String pyStrLe := ⟨fun a b => charListLe_total a.data b.data⟩

instance : IsTrans String pyStrLe := ⟨fun a b c h1 h2 => charListLe_trans a.data b.data c.data h1 h2⟩

theorem ccgCandidates_sorted (nodes : List Node) :
    List.Sorted pyStrLe (ccgCandidates nodes) := by
  unfold ccgCandidates
  exact List.Pairwise.sublist (List.take_sublist _ _) (List.sorted_insertionSort pyStrLe _)

theorem ccgCandidates_length_le (nodes : List Node) : (ccgCandidates nodes).length ≤ 50 := by
  unfold ccgCandidates
  exact List.length_take_le _ _

theorem ccgCandidates_mem (nodes : List Node) :
    ∀ c ∈ ccgCandidates nodes, ∃ n ∈ nodes, n.id = c ∧ n.type = "function" := by
  intro c hc
  unfold ccgCandidates at hc
  have hc2 : c ∈ List.insertionSort pyStrLe
      ((nodes.filter (fun n => n.type == "function")).map (fun n => n.id)) :=
    (List.take_sublist _ _).mem hc
  have hc3 := (List.perm_insertionSort pyStrLe _).mem_iff.mp hc2
  obtain ⟨n, hn, rfl⟩ := List.mem_map.mp hc3
  obtain ⟨hn1, hn2⟩ := List.mem_filter.mp hn
  exact ⟨n, hn1, rfl, by simpa using hn2⟩

theorem ccgCandidates_ne_nil (nodes : List Node) :
    ccgCandidates nodes ≠ [] ↔ ∃ n ∈ nodes, n.type = "function" := by
  unfold ccgCandidates
  constructor
  · intro h
    have h1 : List.insertionSort pyStrLe
        ((nodes.filter (fun n => n.type == "function")).map (fun n => n.id)) ≠ [] := by
      intro hnil
      rw [hnil] at h
      simp at h
    have h2 : (nodes.filter (fun n => n.type == "function")).map (fun n => n.id) ≠ [] := by
      intro hnil
      exact h1 (by rw [hnil]; rfl)
    have h3 : nodes.filter (fun n => n.type == "function") ≠ [] := by
      intro hnil; apply h2; rw [hnil]; rfl
    obtain ⟨n, hn⟩ := List.exists_mem_of_ne_nil _ h3
    obtain ⟨hn1, hn2⟩ := List.mem_filter.mp hn
    exact ⟨n, hn1, by simpa using hn2⟩
  · rintro ⟨n, hn, ht⟩
    intro hnil
    have hmem : n.id ∈ (nodes.filter (fun n => n.type == "function")).map (fun n => n.id) :=
      List.mem_map.mpr ⟨n, List.mem_filter.mpr ⟨hn, by simpa using ht⟩, rfl⟩
    have hmem2 : n.id ∈ List.insertionSort pyStrLe
        ((nodes.filter (fun n => n.type == "function")).map (fun n => n.id)) :=
      (List.perm_insertionSort pyStrLe _).mem_iff.mpr hmem
    have : List.insertionSort pyStrLe
        ((nodes.filter (fun n => n.type == "function")).map (fun n => n.id)) ≠ [] := by
      intro h; rw [h] at hmem2; simp at hmem2
    rcases List.take_eq_nil_iff.mp hnil with h | h
    · omega
    · exact this h
/-! ## Spec-modelled name-resolution rules (for comparison with the code) -/

/-- Modelled from the spec: rule (a), exact equality with the query,
case-insensitive. -/
def specExactMatch (q nid : String) : Prop := pyLower nid = pyLower q

/-- Modelled from the spec: rule (b), the id ends with `":" + query` or
`"." + query`, case-insensitive. -/
def specSuffixMatch (q nid : String) : Prop :=
  pyEndsWith (pyLower nid) (":" ++ pyLower q) = true ∨
  pyEndsWith (pyLower nid) ("." ++ pyLower q) = true

/-- Modelled from the spec: rule (c), the id's last segment after splitting
on `:` then `.` equals the query, case-insensitive. -/
def specBareMatch (q nid : String) : Prop :=
  pyLower ⟨pyLastPart (pySplitChar '.' (pyLastPart (pySplitChar ':' nid.data)))⟩ = pyLower q

theorem matchesQuery_iff (q nid : String) :
    matchesQuery q nid = true ↔
      specExactMatch q nid ∨ specSuffixMatch q nid ∨ specBareMatch q nid := by
  simp only [matchesQuery, specExactMatch, specSuffixMatch, specBareMatch,
    Bool.or_eq_true, beq_iff_eq]
  tauto

/-! ## Concrete graphs used by the C1/C2/C4 theorems -/

/-- The three-node graph of the literal-matching regression scenario. -/
def c1nodes : List Node := [
  { id := "m:a", type := "function", name := "a", module := "m" },
  { id := "m:b", type := "function", name := "b", module := "m" },
  { id := "m:c", type := "function", name := "c", module := "m" }]

/-- The two edges of the scenario exactly as the claim writes them:
`from:"m:a", to:"b"` and `from:"b", to:"c"`. -/
def c1edges : List Edge := [
  { frm := "m:a", to_ := "b", label := "calls" },
  { frm := "b", to_ := "c", label := "calls" }]

/-- Variant edges in which the second edge is written with the qualified
node id `"m:b"` as its `from` field. -/
def c1edgesQualified : List Edge := [
  { frm := "m:a", to_ := "b", label := "calls" },
  { frm := "m:b", to_ := "c", label := "calls" }]

/-- Two-node graph for the suffix-matching example of C2. -/
def c2nodes : List Node := [
  { id := "pkg/mod.py:Config.load_config", type := "function", name := "load_config",
    module := "pkg/mod.py" },
  { id := "pkg/mod.py:load_config", type := "function", name := "load_config",
    module := "pkg/mod.py" }]

/-! ## Claim theorems C1, C2, C4 -/

/-- C1 (counterexample): on the claimed input — nodes `m:a, m:b, m:c`,
edges `[(from "m:a", to "b"), (from "b", to "c")]`, query `a`, direction
`callees`, depth 2 — the query result DOES contain `c` (at depth 2),
refuting the claim's assertion that `c` is not returned: the second edge's
`from` text `"b"` is written identically to the first edge's `to` text
`"b"`, so raw-text adjacency connects them. -/
theorem C1_counterexample :
    query_relationships c1nodes c1edges "a" "callees" 2 =
      .ok { matches_ := [{ id := "m:a", name := "a", type := "function", module := "m" }],
            callees := some [("m:a",
              [{ id := "b", name := "b", type := "unknown", module := "unknown", depth := 1 },
               { id := "c", name := "c", type := "unknown", module := "unknown", depth := 2 }])],
            callers := none } ∧
    ({ id := "c", name := "c", type := "unknown", module := "unknown", depth := 2 } : RItem) ∈
      [({ id := "b", name := "b", type := "unknown", module := "unknown", depth := 1 } : RItem),
       { id := "c", name := "c", type := "unknown", module := "unknown", depth := 2 }] := by
  constructor
  · rfl
  · decide

/-- C1 (amended): on the claim's input the query `function="a",
direction="callees", depth=2` returns `b` at depth 1 AND `c` at depth 2,
because the second edge's `from` field (`"b"`) is textually identical to
the first edge's `to` field (`"b"`); adjacency is keyed by the raw,
unresolved edge text. The claimed non-connection appears only when the
second edge is written with the resolved id `"m:b"` as its `from` field:
then `b` is returned at depth 1 and `c` is not returned at all. -/
theorem C1_amended :
    query_relationships c1nodes c1edges "a" "callees" 2 =
      .ok { matches_ := [{ id := "m:a", name := "a", type := "function", module := "m" }],
            callees := some [("m:a",
              [{ id := "b", name := "b", type := "unknown", module := "unknown", depth := 1 },
               { id := "c", name := "c", type := "unknown", module := "unknown", depth := 2 }])],
            callers := none } ∧
    query_relationships c1nodes c1edgesQualified "a" "callees" 2 =
      .ok { matches_ := [{ id := "m:a", name := "a", type := "function", module := "m" }],
            callees := some [("m:a",
              [{ id := "b", name := "b", type := "unknown", module := "unknown", depth := 1 }])],
            callers := none } := by
  exact ⟨rfl, rfl⟩

/-- C2: name resolution is case-insensitive and the match set is exactly
the node ids satisfying rule (a) exact, (b) `:`/`.`-suffix, or (c)
bare-name equality; each matching id appears once (the match list has no
duplicates). In particular `"load_config"` matches both
`"pkg/mod.py:Config.load_config"` and `"pkg/mod.py:load_config"`. -/
theorem C2_name_resolution :
    (∀ (q : String) (nodes : List Node),
      (queryMatches q nodes).Nodup ∧
      ∀ nid, nid ∈ queryMatches q nodes ↔
        ((∃ n ∈ nodes, n.id = nid) ∧
          (specExactMatch q nid ∨ specSuffixMatch q nid ∨ specBareMatch q nid))) ∧
    "pkg/mod.py:Config.load_config" ∈ queryMatches "load_config" c2nodes ∧
    "pkg/mod.py:load_config" ∈ queryMatches "load_config" c2nodes := by
  refine ⟨fun q nodes => ⟨(nodeMapKeys_nodup nodes).filter _, fun nid => ?_⟩, by decide, by decide⟩
  rw [queryMatches, List.mem_filter, nodeMapKeys_mem, matchesQuery_iff]

/-- C4 (counterexample): on a graph with no nodes at all, name resolution
yields zero matches and the query fails with a `NotFound` payload whose
candidate list is EMPTY, refuting the claim that the suggestion list is
always non-empty. -/
theorem C4_counterexample :
    query_relationships [] [] "somefn" "both" 1 = .notFound [] := by
  rfl

/-- C4 (amended): whenever name resolution yields zero matches, the query
fails with `NotFound` carrying a candidate list that is lexically sorted,
has at most 50 entries, and contains only ids of Function-kind nodes; the
list is non-empty exactly when the graph contains at least one
Function-kind node (so it can be empty, contrary to the original claim). -/
theorem C4_amended (nodes : List Node) (edges : List Edge)
    (q dir : String) (depth : Nat)
    (h : queryMatches q nodes = []) :
    query_relationships nodes edges q dir depth = .notFound (ccgCandidates nodes) ∧
    List.Sorted pyStrLe (ccgCandidates nodes) ∧
    (ccgCandidates nodes).length ≤ 50 ∧
    (∀ c ∈ ccgCandidates nodes, ∃ n ∈ nodes, n.id = c ∧ n.type = "function") ∧
    (ccgCandidates nodes ≠ [] ↔ ∃ n ∈ nodes, n.type = "function") := by
  refine ⟨?_, ccgCandidates_sorted nodes, ccgCandidates_length_le nodes,
    ccgCandidates_mem nodes, ccgCandidates_ne_nil nodes⟩
  unfold query_relationships
  rw [h]
  rfl

/-- C4 witness: a concrete graph holding one Function node, queried for a
name that resolves to nothing, hits the amended `NotFound` contract. -/
theorem C4_witness :
    queryMatches "zzz" [{ id := "m:f", type := "function", name := "f", module := "m" }] = [] ∧
    (query_relationships [{ id := "m:f", type := "function", name := "f", module := "m" }] []
        "zzz" "both" 1 =
      .notFound (ccgCandidates [{ id := "m:f", type := "function", name := "f", module := "m" }]) ∧
    List.Sorted pyStrLe
      (ccgCandidates [{ id := "m:f", type := "function", name := "f", module := "m" }]) ∧
    (ccgCandidates [{ id := "m:f", type := "function", name := "f", module := "m" }]).length ≤ 50 ∧
    (∀ c ∈ ccgCandidates [{ id := "m:f", type := "function", name := "f", module := "m" }],
      ∃ n ∈ [({ id := "m:f", type := "function", name := "f", module := "m" } : Node)],
        n.id = c ∧ n.type = "function") ∧
    (ccgCandidates [{ id := "m:f", type := "function", name := "f", module := "m" }] ≠ [] ↔
      ∃ n ∈ [({ id := "m:f", type := "function", name := "f", module := "m" } : Node)],
        n.type = "function")) :=
  ⟨by decide, C4_amended _ [] "zzz" "both" 1 (by decide)⟩
/-! ## Reachability along an adjacency function, and BFS soundness -/

/-- Reachability: `reachN adj s d t` holds when `t` is reachable from `s` in exactly `d` hops along
the neighbor function `adj` (the expansion direction of the traversal). -/
def reachN (adj : String → List String) (s : String) : Nat → String → Prop
  | 0, t => t = s
  | d + 1, t => ∃ u, reachN adj s d u ∧ t ∈ adj u

theorem reachN_step {adj : String → List String} {s u t : String} {d : Nat}
    (h1 : reachN adj s d u) (h2 : t ∈ adj u) : reachN adj s (d + 1) t :=
  ⟨u, h1, h2⟩

theorem mkRItem_id (nmap : String → Option Node) (nb : String) (d : Nat) :
    (mkRItem nmap nb d).id = nb := by
  unfold mkRItem; cases nmap nb <;> rfl

theorem mkRItem_depth (nmap : String → Option Node) (nb : String) (d : Nat) :
    (mkRItem nmap nb d).depth = d + 1 := by
  unfold mkRItem; cases nmap nb <;> rfl

/-! ### Lemmas about the inner neighbor loop -/

theorem addNeighbors_res_mono (nmap : String → Option Node) (d : Nat) :
    ∀ (ns : List String) (R : List RItem) (N : List String),
      ∀ r ∈ R, r ∈ (addNeighbors nmap d ns R N).1 := by
  intro ns
  induction ns with
  | nil => intro R N r hr; simpa [addNeighbors] using hr
  | cons nb rest ih =>
    intro R N r hr
    simp only [addNeighbors]
    apply ih
    by_cases h : nb ∈ R.map (fun r => r.id)
    · simpa [h] using hr
    · simp only [if_neg h]
      exact List.mem_append_left _ hr

theorem addNeighbors_ids_mono (nmap : String → Option Node) (d : Nat)
    (ns : List String) (R : List RItem) (N : List String) :
    ∀ s ∈ R.map (fun r => r.id), s ∈ (addNeighbors nmap d ns R N).1.map (fun r => r.id) := by
  intro s hs
  obtain ⟨r, hr, rfl⟩ := List.mem_map.mp hs
  exact List.mem_map.mpr ⟨r, addNeighbors_res_mono nmap d ns R N r hr, rfl⟩

theorem addNeighbors_next_mono (nmap : String → Option Node) (d : Nat) :
    ∀ (ns : List String) (R : List RItem) (N : List String),
      ∀ t ∈ N, t ∈ (addNeighbors nmap d ns R N).2 := by
  intro ns
  induction ns with
  | nil => intro R N t ht; simpa [addNeighbors] using ht
  | cons nb rest ih =>
    intro R N t ht
    simp only [addNeighbors]
    apply ih
    by_cases h : nb ∈ N
    · simpa [h] using ht
    · simp only [if_neg h]
      exact List.mem_append_left _ ht

theorem addNeighbors_covers (nmap : String → Option Node) (d : Nat) :
    ∀ (ns : List String) (R : List RItem) (N : List String),
      ∀ t ∈ ns, t ∈ (addNeighbors nmap d ns R N).1.map (fun r => r.id) ∧
        t ∈ (addNeighbors nmap d ns R N).2 := by
  intro ns
  induction ns with
  | nil => intro R N t ht; simp at ht
  | cons nb rest ih =>
    intro R N t ht
    rcases List.mem_cons.mp ht with rfl | ht'
    · simp only [addNeighbors]
      constructor
      · apply addNeighbors_ids_mono
        by_cases h : t ∈ R.map (fun r => r.id)
        · simp only [if_pos h]; exact h
        · simp only [if_neg h, List.map_append]
          apply List.mem_append_right
          simp [mkRItem_id]
      · apply addNeighbors_next_mono
        by_cases h : t ∈ N
        · simp only [if_pos h]; exact h
        · simp only [if_neg h]
          exact List.mem_append_right _ (by simp)
    · simp only [addNeighbors]
      exact ih _ _ t ht'

theorem addNeighbors_res_new (nmap : String → Option Node) (d : Nat) :
    ∀ (ns : List String) (R : List RItem) (N : List String),
      ∀ r ∈ (addNeighbors nmap d ns R N).1,
        r ∈ R ∨ (r.depth = d + 1 ∧ r.id ∈ ns ∧ r.id ∉ R.map (fun r => r.id)) := by
  intro ns
  induction ns with
  | nil => intro R N r hr; left; simpa [addNeighbors] using hr
  | cons nb rest ih =>
    intro R N r hr
    simp only [addNeighbors] at hr
    by_cases h : nb ∈ R.map (fun r => r.id)
    · rw [if_pos h] at hr
      rcases ih _ _ r hr with h1 | ⟨h1, h2, h3⟩
      · exact Or.inl h1
      · exact Or.inr ⟨h1, List.mem_cons_of_mem _ h2, h3⟩
    · rw [if_neg h] at hr
      rcases ih _ _ r hr with h1 | ⟨h1, h2, h3⟩
      · rcases List.mem_append.mp h1 with h2 | h2
        · exact Or.inl h2
        · right
          rcases List.mem_singleton.mp h2 with rfl
          exact ⟨mkRItem_depth nmap nb d, by simp [mkRItem_id], by simp [mkRItem_id, h]⟩
      · refine Or.inr ⟨h1, List.mem_cons_of_mem _ h2, fun hc => h3 ?_⟩
        simp only [List.map_append]
        exact List.mem_append_left _ hc

theorem addNeighbors_next_new (nmap : String → Option Node) (d : Nat) :
    ∀ (ns : List String) (R : List RItem) (N : List String),
      ∀ t ∈ (addNeighbors nmap d ns R N).2, t ∈ N ∨ t ∈ ns := by
  intro ns
  induction ns with
  | nil => intro R N t ht; left; simpa [addNeighbors] using ht
  | cons nb rest ih =>
    intro R N t ht
    simp only [addNeighbors] at ht
    rcases ih _ _ t ht with h1 | h1
    · by_cases h : nb ∈ N
      · rw [if_pos h] at h1; exact Or.inl h1
      · rw [if_neg h] at h1
        rcases List.mem_append.mp h1 with h2 | h2
        · exact Or.inl h2
        · rcases List.mem_singleton.mp h2 with rfl
          exact Or.inr (List.mem_cons_self _ _)
    · exact Or.inr (List.mem_cons_of_mem _ h1)
/-! ### Lemmas about the per-level frontier loop -/

theorem stepLevel_vis_mono (adj : String → List String) (nmap : String → Option Node) (d : Nat) :
    ∀ (L V : List String) (R : List RItem) (N : List String),
      ∀ v ∈ V, v ∈ (stepLevel adj nmap d L V R N).1 := by
  intro L
  induction L with
  | nil => intro V R N v hv; simpa [stepLevel] using hv
  | cons node rest ih =>
    intro V R N v hv
    simp only [stepLevel]
    by_cases h : node ∈ V
    · rw [if_pos h]; exact ih _ _ _ v hv
    · rw [if_neg h]; exact ih _ _ _ v (List.mem_append_left _ hv)

theorem stepLevel_frontier_visited (adj : String → List String) (nmap : String → Option Node)
    (d : Nat) :
    ∀ (L V : List String) (R : List RItem) (N : List String),
      ∀ u ∈ L, u ∈ (stepLevel adj nmap d L V R N).1 := by
  intro L
  induction L with
  | nil => intro V R N u hu; simp at hu
  | cons node rest ih =>
    intro V R N u hu
    simp only [stepLevel]
    rcases List.mem_cons.mp hu with rfl | hu'
    · by_cases h : u ∈ V
      · rw [if_pos h]; exact stepLevel_vis_mono adj nmap d _ _ _ _ u h
      · rw [if_neg h]
        exact stepLevel_vis_mono adj nmap d _ _ _ _ u
          (List.mem_append_right _ (List.mem_singleton.mpr rfl))
    · by_cases h : node ∈ V
      · rw [if_pos h]; exact ih _ _ _ u hu'
      · rw [if_neg h]; exact ih _ _ _ u hu'

theorem stepLevel_res_mono (adj : String → List String) (nmap : String → Option Node) (d : Nat) :
    ∀ (L V : List String) (R : List RItem) (N : List String),
      ∀ r ∈ R, r ∈ (stepLevel adj nmap d L V R N).2.1 := by
  intro L
  induction L with
  | nil => intro V R N r hr; simpa [stepLevel] using hr
  | cons node rest ih =>
    intro V R N r hr
    simp only [stepLevel]
    by_cases h : node ∈ V
    · rw [if_pos h]; exact ih _ _ _ r hr
    · rw [if_neg h]
      exact ih _ _ _ r (addNeighbors_res_mono nmap d (adj node) R N r hr)

theorem stepLevel_ids_mono (adj : String → List String) (nmap : String → Option Node) (d : Nat)
    (L V : List String) (R : List RItem) (N : List String) :
    ∀ s ∈ R.map (fun r => r.id), s ∈ (stepLevel adj nmap d L V R N).2.1.map (fun r => r.id) := by
  intro s hs
  obtain ⟨r, hr, rfl⟩ := List.mem_map.mp hs
  exact List.mem_map.mpr ⟨r, stepLevel_res_mono adj nmap d L V R N r hr, rfl⟩

theorem stepLevel_next_mono (adj : String → List String) (nmap : String → Option Node) (d : Nat) :
    ∀ (L V : List String) (R : List RItem) (N : List String),
      ∀ t ∈ N, t ∈ (stepLevel adj nmap d L V R N).2.2 := by
  intro L
  induction L with
  | nil => intro V R N t ht; simpa [stepLevel] using ht
  | cons node rest ih =>
    intro V R N t ht
    simp only [stepLevel]
    by_cases h : node ∈ V
    · rw [if_pos h]; exact ih _ _ _ t ht
    · rw [if_neg h]
      exact ih _ _ _ t (addNeighbors_next_mono nmap d (adj node) R N t ht)

theorem stepLevel_res_new (adj : String → List String) (nmap : String → Option Node) (d : Nat) :
    ∀ (L V : List String) (R : List RItem) (N : List String),
      ∀ r ∈ (stepLevel adj nmap d L V R N).2.1,
        r ∈ R ∨ (r.depth = d + 1 ∧ (∃ u ∈ L, r.id ∈ adj u) ∧ r.id ∉ R.map (fun r => r.id)) := by
  intro L
  induction L with
  | nil => intro V R N r hr; left; simpa [stepLevel] using hr
  | cons node rest ih =>
    intro V R N r hr
    simp only [stepLevel] at hr
    by_cases h : node ∈ V
    · rw [if_pos h] at hr
      rcases ih _ _ _ r hr with h1 | ⟨h1, ⟨u, hu, h2⟩, h3⟩
      · exact Or.inl h1
      · exact Or.inr ⟨h1, ⟨u, List.mem_cons_of_mem _ hu, h2⟩, h3⟩
    · rw [if_neg h] at hr
      rcases ih _ _ _ r hr with h1 | ⟨h1, ⟨u, hu, h2⟩, h3⟩
      · rcases addNeighbors_res_new nmap d (adj node) R N r h1 with h2 | ⟨h2, h3, h4⟩
        · exact Or.inl h2
        · exact Or.inr ⟨h2, ⟨node, List.mem_cons_self _ _, h3⟩, h4⟩
      · refine Or.inr ⟨h1, ⟨u, List.mem_cons_of_mem _ hu, h2⟩, fun hc => h3 ?_⟩
        exact addNeighbors_ids_mono nmap d (adj node) R N r.id hc

theorem stepLevel_expands (adj : String → List String) (nmap : String → Option Node) (d : Nat) :
    ∀ (L V : List String) (R : List RItem) (N : List String),
      ∀ u ∈ L, u ∈ V ∨
        ∀ t ∈ adj u, t ∈ (stepLevel adj nmap d L V R N).2.1.map (fun r => r.id) ∧
          t ∈ (stepLevel adj nmap d L V R N).2.2 := by
  intro L
  induction L with
  | nil => intro V R N u hu; simp at hu
  | cons node rest ih =>
    intro V R N u hu
    simp only [stepLevel]
    by_cases h : node ∈ V
    · rw [if_pos h]
      rcases List.mem_cons.mp hu with rfl | hu'
      · exact Or.inl h
      · exact ih _ _ _ u hu'
    · rw [if_neg h]
      rcases List.mem_cons.mp hu with rfl | hu'
      · right
        intro t ht
        have hcov := addNeighbors_covers nmap d (adj u) R N t ht
        exact ⟨stepLevel_ids_mono adj nmap d rest _ _ _ t hcov.1,
          stepLevel_next_mono adj nmap d rest _ _ _ t hcov.2⟩
      · rcases ih (V ++ [node]) (addNeighbors nmap d (adj node) R N).1
          (addNeighbors nmap d (adj node) R N).2 u hu' with h1 | h1
        · rcases List.mem_append.mp h1 with h2 | h2
          · exact Or.inl h2
          · rcases List.mem_singleton.mp h2 with rfl
            right
            intro t ht
            have hcov := addNeighbors_covers nmap d (adj u) R N t ht
            exact ⟨stepLevel_ids_mono adj nmap d rest _ _ _ t hcov.1,
              stepLevel_next_mono adj nmap d rest _ _ _ t hcov.2⟩
        · exact Or.inr h1

theorem stepLevel_vis_origin (adj : String → List String) (nmap : String → Option Node) (d : Nat) :
    ∀ (L V : List String) (R : List RItem) (N : List String),
      ∀ v ∈ (stepLevel adj nmap d L V R N).1, v ∈ V ∨ v ∈ L := by
  intro L
  induction L with
  | nil => intro V R N v hv; left; simpa [stepLevel] using hv
  | cons node rest ih =>
    intro V R N v hv
    simp only [stepLevel] at hv
    by_cases h : node ∈ V
    · rw [if_pos h] at hv
      rcases ih _ _ _ v hv with h1 | h1
      · exact Or.inl h1
      · exact Or.inr (List.mem_cons_of_mem _ h1)
    · rw [if_neg h] at hv
      rcases ih _ _ _ v hv with h1 | h1
      · rcases List.mem_append.mp h1 with h2 | h2
        · exact Or.inl h2
        · rcases List.mem_singleton.mp h2 with rfl
          exact Or.inr (List.mem_cons_self _ _)
      · exact Or.inr (List.mem_cons_of_mem _ h1)

theorem stepLevel_next_new (adj : String → List String) (nmap : String → Option Node) (d : Nat) :
    ∀ (L V : List String) (R : List RItem) (N : List String),
      ∀ t ∈ (stepLevel adj nmap d L V R N).2.2, t ∈ N ∨ ∃ u ∈ L, t ∈ adj u := by
  intro L
  induction L with
  | nil => intro V R N t ht; left; simpa [stepLevel] using ht
  | cons node rest ih =>
    intro V R N t ht
    simp only [stepLevel] at ht
    by_cases h : node ∈ V
    · rw [if_pos h] at ht
      rcases ih _ _ _ t ht with h1 | ⟨u, hu, h2⟩
      · exact Or.inl h1
      · exact Or.inr ⟨u, List.mem_cons_of_mem _ hu, h2⟩
    · rw [if_neg h] at ht
      rcases ih _ _ _ t ht with h1 | ⟨u, hu, h2⟩
      · rcases addNeighbors_next_new nmap d (adj node) R N t h1 with h2 | h2
        · exact Or.inl h2
        · exact Or.inr ⟨node, List.mem_cons_self _ _, h2⟩
      · exact Or.inr ⟨u, List.mem_cons_of_mem _ hu, h2⟩
/-! ### Level-by-level invariant of the traversal loop -/

theorem traverseLoop_sound (adj : String → List String) (nmap : String → Option Node)
    (s : String) :
    ∀ (k d : Nat) (F V : List String) (R : List RItem),
      (∀ f ∈ F, reachN adj s d f) →
      (∀ r ∈ R, 1 ≤ r.depth ∧ r.depth ≤ d ∧ reachN adj s r.depth r.id ∧
        ∀ d', 1 ≤ d' → reachN adj s d' r.id → r.depth ≤ d') →
      (∀ n d', 1 ≤ d' → d' ≤ d → reachN adj s d' n → n ∈ R.map (fun r => r.id)) →
      (∀ n, reachN adj s d n → n ∈ F ∨ n ∈ V) →
      (∀ v ∈ V, ∀ t ∈ adj v, t ∈ R.map (fun r => r.id) ∧ (t ∈ V ∨ t ∈ F)) →
      ∀ r ∈ traverseLoop adj nmap k d F V R,
        1 ≤ r.depth ∧ r.depth ≤ d + k ∧ reachN adj s r.depth r.id ∧
        ∀ d', 1 ≤ d' → reachN adj s d' r.id → r.depth ≤ d' := by
  intro k
  induction k with
  | zero =>
    intro d F V R hB hA hC hD hE r hr
    have := hA r (by simpa [traverseLoop] using hr)
    exact ⟨this.1, by omega, this.2.2⟩
  | succ k ih =>
    intro d F V R hB hA hC hD hE r hr
    simp only [traverseLoop] at hr
    -- the state after expanding level d
    set SL := stepLevel adj nmap d F V R [] with hSL
    -- new invariants at level d + 1
    have hB' : ∀ f ∈ SL.2.2, reachN adj s (d + 1) f := by
      intro f hf
      rcases stepLevel_next_new adj nmap d F V R [] f hf with h1 | ⟨u, hu, h2⟩
      · simp at h1
      · exact reachN_step (hB u hu) h2
    have hA' : ∀ r ∈ SL.2.1, 1 ≤ r.depth ∧ r.depth ≤ d + 1 ∧ reachN adj s r.depth r.id ∧
        ∀ d', 1 ≤ d' → reachN adj s d' r.id → r.depth ≤ d' := by
      intro r hr
      rcases stepLevel_res_new adj nmap d F V R [] r hr with h1 | ⟨h1, ⟨u, hu, h2⟩, h3⟩
      · have := hA r h1
        exact ⟨this.1, by omega, this.2.2⟩
      · refine ⟨by omega, by omega, h1 ▸ reachN_step (hB u hu) h2, ?_⟩
        intro d' hd1 hd2
        by_cases hle : d' ≤ d
        · exact absurd (hC r.id d' hd1 hle hd2) h3
        · omega
    have hC' : ∀ n d', 1 ≤ d' → d' ≤ d + 1 → reachN adj s d' n →
        n ∈ SL.2.1.map (fun r => r.id) := by
      intro n d' hd1 hd2 hreach
      by_cases hle : d' ≤ d
      · exact stepLevel_ids_mono adj nmap d F V R [] n (hC n d' hd1 hle hreach)
      · have hd : d' = d + 1 := by omega
        subst hd
        obtain ⟨u, hu, hn⟩ := hreach
        rcases hD u hu with h1 | h1
        · rcases stepLevel_expands adj nmap d F V R [] u h1 with h2 | h2
          · exact stepLevel_ids_mono adj nmap d F V R [] n (hE u h2 n hn).1
          · exact (h2 n hn).1
        · exact stepLevel_ids_mono adj nmap d F V R [] n (hE u h1 n hn).1
    have hD' : ∀ n, reachN adj s (d + 1) n → n ∈ SL.2.2 ∨ n ∈ SL.1 := by
      intro n hreach
      obtain ⟨u, hu, hn⟩ := hreach
      rcases hD u hu with h1 | h1
      · rcases stepLevel_expands adj nmap d F V R [] u h1 with h2 | h2
        · rcases (hE u h2 n hn).2 with h3 | h3
          · exact Or.inr (stepLevel_vis_mono adj nmap d F V R [] n h3)
          · exact Or.inr (stepLevel_frontier_visited adj nmap d F V R [] n h3)
        · exact Or.inl (h2 n hn).2
      · rcases (hE u h1 n hn).2 with h3 | h3
        · exact Or.inr (stepLevel_vis_mono adj nmap d F V R [] n h3)
        · exact Or.inr (stepLevel_frontier_visited adj nmap d F V R [] n h3)
    have hE' : ∀ v ∈ SL.1, ∀ t ∈ adj v,
        t ∈ SL.2.1.map (fun r => r.id) ∧ (t ∈ SL.1 ∨ t ∈ SL.2.2) := by
      intro v hv t ht
      rcases stepLevel_vis_origin adj nmap d F V R [] v hv with h1 | h1
      · refine ⟨stepLevel_ids_mono adj nmap d F V R [] t (hE v h1 t ht).1, ?_⟩
        left
        rcases (hE v h1 t ht).2 with h2 | h2
        · exact stepLevel_vis_mono adj nmap d F V R [] t h2
        · exact stepLevel_frontier_visited adj nmap d F V R [] t h2
      · rcases stepLevel_expands adj nmap d F V R [] v h1 with h2 | h2
        · refine ⟨stepLevel_ids_mono adj nmap d F V R [] t (hE v h2 t ht).1, ?_⟩
          left
          rcases (hE v h2 t ht).2 with h3 | h3
          · exact stepLevel_vis_mono adj nmap d F V R [] t h3
          · exact stepLevel_frontier_visited adj nmap d F V R [] t h3
        · exact ⟨(h2 t ht).1, Or.inr (h2 t ht).2⟩
    have := ih (d + 1) SL.2.2 SL.1 SL.2.1 hB' hA' hC' hD' hE' r hr
    exact ⟨this.1, by omega, this.2.2⟩

/-- C3: for every graph, start node, direction flag and requested depth
bound in [1,10], every entry reported by `traverse_graph` has depth between
1 and the bound, is reachable from the start in exactly `depth` hops along
the expansion direction, and its recorded depth is the smallest hop count
(≥ 1) at which it is reachable. -/
theorem C3_bfs_depth (edges : List Edge) (nodes : List Node) (fwd : Bool)
    (start : String) (maxDepth : Nat) (_h1 : 1 ≤ maxDepth) (_h10 : maxDepth ≤ 10) :
    ∀ r ∈ traverse_graph (adjOf edges fwd) (nodeMapGet nodes) start maxDepth,
      (1 ≤ r.depth ∧ r.depth ≤ maxDepth) ∧
      reachN (adjOf edges fwd) start r.depth r.id ∧
      (∀ d', 1 ≤ d' → reachN (adjOf edges fwd) start d' r.id → r.depth ≤ d') := by
  intro r hr
  have hmain := traverseLoop_sound (adjOf edges fwd) (nodeMapGet nodes) start maxDepth 0
    [start] [] []
    (by intro f hf; rcases List.mem_singleton.mp hf with rfl; rfl)
    (by intro r hr; simp at hr)
    (by intro n d' hd1 hd2 _; omega)
    (by intro n hreach; left; exact List.mem_singleton.mpr hreach)
    (by intro v hv; simp at hv)
    r hr
  exact ⟨⟨hmain.1, by have := hmain.2.1; omega⟩, hmain.2.2⟩

/-- C3 witness: on the concrete regression graph, the traversal from
`"m:a"` forward with bound 2 reports the neighbor `b` at depth 1, and the
soundness theorem instantiates on it. -/
theorem C3_witness :
    ({ id := "b", name := "b", type := "unknown", module := "unknown", depth := 1 } : RItem) ∈
      traverse_graph (adjOf c1edges true) (nodeMapGet c1nodes) "m:a" 2 ∧
    ((1 ≤ (1 : Nat) ∧ (1 : Nat) ≤ 2) ∧
      reachN (adjOf c1edges true) "m:a" 1 "b" ∧
      (∀ d', 1 ≤ d' → reachN (adjOf c1edges true) "m:a" d' "b" → 1 ≤ d')) :=
  ⟨by decide, C3_bfs_depth c1edges c1nodes true "m:a" 2 (by decide) (by decide)
    { id := "b", name := "b", type := "unknown", module := "unknown", depth := 1 } (by decide)⟩
/-! ## Precise extractor (ccg_builder.py, parse_python) -/

/-- Python AST fragment visited by `FuncVisitor`: class definitions,
function definitions, names, attribute accesses, calls, and a constructor
for any other expression (visited but contributing nothing). Statement and
expression nodes are merged into one tree type; `generic_visit` descends
into the children in source order. -/
inductive PyTree where
  | classDef (name : String) (body : List PyTree)
  | funcDef (name : String) (lineno : Nat) (body : List PyTree)
  | exprName (id : String)
  | attrGet (value : PyTree) (attrName : String)
  | call (func : PyTree) (args : List PyTree)
  | constExpr
deriving Repr

/-- Output of one extractor run (`{"nodes": [...], "edges": [...]}`). -/
structure ParseResult where
  nodes : List Node
  edges : List Edge
deriving Repr, DecidableEq

/-- The attribute chain of a callee expression, collected outward and
reversed into source order (`a.b.c` for `cur = Attribute(...)` walks). The
base contributes only when it is a bare `Name`. -/
def chainParts : PyTree → List String
  | .attrGet v a => chainParts v ++ [a]
  | .exprName id => [id]
  | _ => []

/-- Best-effort callee name of `visit_Call`: a bare identifier, a dotted
attribute chain, or nothing for any other call target. -/
def calledOf : PyTree → Option String
  | .exprName id => some id
  | .attrGet v a => some (String.intercalate "." (chainParts (.attrGet v a)))
  | _ => none

mutual
/-- The `FuncVisitor` traversal of ccg_builder.py (lines 29-73): `cfn` is
`current_fn`, `ccls` is `current_class`; nodes and edges are appended to
the accumulator exactly as the Python visitor appends to the enclosing
lists. -/
def visitPy (mod : String) (cfn ccls : Option String) (acc : ParseResult) :
    PyTree → ParseResult
  | .classDef name body =>
    let acc' := { acc with nodes := acc.nodes ++
      [{ id := mod ++ ":" ++ name, type := "class", name := name, module := mod }] }
    visitPyList mod cfn (some name) acc' body
  | .funcDef name lineno body =>
    let nid := match ccls with
      | some c => mod ++ ":" ++ c ++ "." ++ name
      | none => mod ++ ":" ++ name
    let acc' := { acc with nodes := acc.nodes ++
      [{ id := nid, type := "function", name := name, module := mod, lineno := some lineno }] }
    visitPyList mod (some nid) ccls acc' body
  | .exprName _ => acc
  | .attrGet v _ => visitPy mod cfn ccls acc v
  | .call f args =>
    let acc' := match calledOf f, cfn with
      | some called, some fid =>
        if called ≠ "" then
          { acc with edges := acc.edges ++ [{ frm := fid, to_ := called, label := "calls" }] }
        else acc
      | _, _ => acc
    visitPyList mod cfn ccls (visitPy mod cfn ccls acc' f) args
  | .constExpr => acc

/-- Sequential `generic_visit` over a list of children. -/
def visitPyList (mod : String) (cfn ccls : Option String) (acc : ParseResult) :
    List PyTree → ParseResult
  | [] => acc
  | t :: ts => visitPyList mod cfn ccls (visitPy mod cfn ccls acc t) ts
end

/-- Model of `parse_python(content, module_name)`: the content is modelled as the
outcome of `ast.parse` — `none` when parsing raises (the function then
returns the so-far-empty accumulators), `some ts` for the module body. -/
def parse_python (astOpt : Option (List PyTree)) (module_name : String) : ParseResult :=
  match astOpt with
  | none => { nodes := [], edges := [] }
  | some ts => visitPyList module_name none none { nodes := [], edges := [] } ts

/-- Every edge of a parse result is attributed to a Function node of the
same result. -/
def edgesAttributed (p : ParseResult) : Prop :=
  ∀ e ∈ p.edges, ∃ n ∈ p.nodes, n.type = "function" ∧ e.frm = n.id

/-- Scope coherence: if a current function is in scope, its id names a
Function node already emitted. -/
def cfnOk (cfn : Option String) (acc : ParseResult) : Prop :=
  ∀ fid, cfn = some fid → ∃ n ∈ acc.nodes, n.type = "function" ∧ n.id = fid

mutual
theorem visitPy_inv (mod : String) (cfn ccls : Option String) (acc : ParseResult) (t : PyTree)
    (hcfn : cfnOk cfn acc) (hacc : edgesAttributed acc) :
    (∀ n ∈ acc.nodes, n ∈ (visitPy mod cfn ccls acc t).nodes) ∧
      edgesAttributed (visitPy mod cfn ccls acc t) := by
  cases t with
  | classDef name body =>
    simp only [visitPy]
    have h := visitPyList_inv mod cfn (some name)
      { acc with nodes := acc.nodes ++ [{ id := mod ++ ":" ++ name, type := "class", name := name, module := mod }] }
      body
      (fun fid hfid => by
        obtain ⟨n, hn, h1, h2⟩ := hcfn fid hfid
        exact ⟨n, List.mem_append_left _ hn, h1, h2⟩)
      (fun e he => by
        obtain ⟨n, hn, h1, h2⟩ := hacc e he
        exact ⟨n, List.mem_append_left _ hn, h1, h2⟩)
    exact ⟨fun n hn => h.1 n (List.mem_append_left _ hn), h.2⟩
  | funcDef name lineno body =>
    simp only [visitPy]
    cases ccls with
    | none =>
      simp only
      have h := visitPyList_inv mod (some (mod ++ ":" ++ name)) none
        { acc with nodes := acc.nodes ++ [{ id := mod ++ ":" ++ name, type := "function", name := name, module := mod, lineno := some lineno }] }
        body
        (fun fid hfid => by
          cases hfid
          exact ⟨_, List.mem_append_right _ (List.mem_singleton.mpr rfl), rfl, rfl⟩)
        (fun e he => by
          obtain ⟨n, hn, h1, h2⟩ := hacc e he
          exact ⟨n, List.mem_append_left _ hn, h1, h2⟩)
      exact ⟨fun n hn => h.1 n (List.mem_append_left _ hn), h.2⟩
    | some c =>
      simp only
      have h := visitPyList_inv mod (some (mod ++ ":" ++ c ++ "." ++ name)) (some c)
        { acc with nodes := acc.nodes ++ [{ id := mod ++ ":" ++ c ++ "." ++ name, type := "function", name := name, module := mod, lineno := some lineno }] }
        body
        (fun fid hfid => by
          cases hfid
          exact ⟨_, List.mem_append_right _ (List.mem_singleton.mpr rfl), rfl, rfl⟩)
        (fun e he => by
          obtain ⟨n, hn, h1, h2⟩ := hacc e he
          exact ⟨n, List.mem_append_left _ hn, h1, h2⟩)
      exact ⟨fun n hn => h.1 n (List.mem_append_left _ hn), h.2⟩
  | exprName id => exact ⟨fun n hn => hn, hacc⟩
  | attrGet v a => exact visitPy_inv mod cfn ccls acc v hcfn hacc
  | call f args =>
    simp only [visitPy]
    rcases hc : calledOf f with _ | called
    · have h1 := visitPy_inv mod cfn ccls acc f hcfn hacc
      have h2 := visitPyList_inv mod cfn ccls (visitPy mod cfn ccls acc f) args
        (fun fid hfid => by
          obtain ⟨n, hn, ha, hb⟩ := hcfn fid hfid
          exact ⟨n, h1.1 n hn, ha, hb⟩)
        h1.2
      exact ⟨fun n hn => h2.1 n (h1.1 n hn), h2.2⟩
    · cases cfn with
      | none =>
        simp only
        have h1 := visitPy_inv mod none ccls acc f hcfn hacc
        have h2 := visitPyList_inv mod none ccls (visitPy mod none ccls acc f) args
          (fun fid hfid => by
            obtain ⟨n, hn, ha, hb⟩ := hcfn fid hfid
            exact ⟨n, h1.1 n hn, ha, hb⟩)
          h1.2
        exact ⟨fun n hn => h2.1 n (h1.1 n hn), h2.2⟩
      | some fid =>
        simp only
        by_cases hne : called ≠ ""
        · rw [if_pos hne]
          have hacc' : edgesAttributed
              { acc with edges := acc.edges ++ [{ frm := fid, to_ := called, label := "calls" }] } := by
            intro e he
            rcases List.mem_append.mp he with h1 | h1
            · exact hacc e h1
            · rcases List.mem_singleton.mp h1 with rfl
              obtain ⟨n, hn, ha, hb⟩ := hcfn fid rfl
              exact ⟨n, hn, ha, hb.symm⟩
          have h1 := visitPy_inv mod (some fid) ccls
            { acc with edges := acc.edges ++ [{ frm := fid, to_ := called, label := "calls" }] } f
            (fun fid' hfid' => hcfn fid' hfid') hacc'
          have h2 := visitPyList_inv mod (some fid) ccls
            (visitPy mod (some fid) ccls
              { acc with edges := acc.edges ++ [{ frm := fid, to_ := called, label := "calls" }] } f)
            args
            (fun fid' hfid' => by
              obtain ⟨n, hn, ha, hb⟩ := hcfn fid' hfid'
              exact ⟨n, h1.1 n hn, ha, hb⟩)
            h1.2
          exact ⟨fun n hn => h2.1 n (h1.1 n hn), h2.2⟩
        · rw [if_neg hne]
          have h1 := visitPy_inv mod (some fid) ccls acc f hcfn hacc
          have h2 := visitPyList_inv mod (some fid) ccls (visitPy mod (some fid) ccls acc f) args
            (fun fid' hfid' => by
              obtain ⟨n, hn, ha, hb⟩ := hcfn fid' hfid'
              exact ⟨n, h1.1 n hn, ha, hb⟩)
            h1.2
          exact ⟨fun n hn => h2.1 n (h1.1 n hn), h2.2⟩
  | constExpr => exact ⟨fun n hn => hn, hacc⟩

theorem visitPyList_inv (mod : String) (cfn ccls : Option String) (acc : ParseResult)
    (ts : List PyTree) (hcfn : cfnOk cfn acc) (hacc : edgesAttributed acc) :
    (∀ n ∈ acc.nodes, n ∈ (visitPyList mod cfn ccls acc ts).nodes) ∧
      edgesAttributed (visitPyList mod cfn ccls acc ts) := by
  cases ts with
  | nil => exact ⟨fun n hn => hn, hacc⟩
  | cons t rest =>
    simp only [visitPyList]
    have h1 := visitPy_inv mod cfn ccls acc t hcfn hacc
    have h2 := visitPyList_inv mod cfn ccls (visitPy mod cfn ccls acc t) rest
      (fun fid hfid => by
        obtain ⟨n, hn, ha, hb⟩ := hcfn fid hfid
        exact ⟨n, h1.1 n hn, ha, hb⟩)
      h1.2
    exact ⟨fun n hn => h2.1 n (h1.1 n hn), h2.2⟩
end

/-- C7: the AST-based extractor emits a call edge only when an enclosing
function is in scope — every emitted edge's `from` field is the id of a
Function node of the same parse — and, concretely, a call at module level
and a call directly in a class body outside any method produce no edges at
all (in particular none attributed to the class). -/
theorem C7_call_edges_need_function_scope :
    (∀ (mod : String) (ts : List PyTree),
      ∀ e ∈ (parse_python (some ts) mod).edges,
        ∃ n ∈ (parse_python (some ts) mod).nodes, n.type = "function" ∧ e.frm = n.id) ∧
    (parse_python (some [.call (.exprName "f") [],
        .classDef "C" [.call (.exprName "g") []]]) "m") =
      { nodes := [{ id := "m:C", type := "class", name := "C", module := "m" }], edges := [] } := by
  constructor
  · intro mod ts
    exact (visitPyList_inv mod none none { nodes := [], edges := [] } ts
      (fun fid hfid => by cases hfid) (fun e he => by cases he)).2
  · rfl

/-- C7 witness: a module whose function `f` calls `g` produces an edge, and
the theorem attributes it to the Function node `m:f`. -/
theorem C7_witness :
    ({ frm := "m:f", to_ := "g", label := "calls" } : Edge) ∈
      (parse_python (some [.funcDef "f" 1 [.call (.exprName "g") []]]) "m").edges ∧
    (∃ n ∈ (parse_python (some [.funcDef "f" 1 [.call (.exprName "g") []]]) "m").nodes,
      n.type = "function" ∧
        ({ frm := "m:f", to_ := "g", label := "calls" } : Edge).frm = n.id) :=
  ⟨by decide, C7_call_edges_need_function_scope.1 "m" [.funcDef "f" 1 [.call (.exprName "g") []]]
    { frm := "m:f", to_ := "g", label := "calls" } (by decide)⟩
/-! ## Heuristic extractor (ccg_builder.py, parse_generic)

The three regex scans are re-implemented as character-list scanners with
the exact semantics of `re.finditer` on these patterns: leftmost,
non-overlapping matches, scanning resuming after each match, advancing one
character on failure. Character classes are the ASCII classes of the
patterns. -/

/-- Word class `\w` of the patterns: `[A-Za-z0-9_]`. -/
def isWordChar (c : Char) : Bool :=
  (48 ≤ c.toNat && c.toNat ≤ 57) || (65 ≤ c.toNat && c.toNat ≤ 90) ||
  (97 ≤ c.toNat && c.toNat ≤ 122) || c.toNat == 95

/-- The identifier class of the patterns: `[A-Za-z0-9_\.]`. -/
def isClassChar (c : Char) : Bool := isWordChar c || c.toNat == 46

/-- Whitespace class `\s` (ASCII): space, tab, newline, carriage return, vertical tab,
form feed. -/
def isPySpace (c : Char) : Bool :=
  c.toNat == 32 || c.toNat == 9 || c.toNat == 10 || c.toNat == 13 ||
  c.toNat == 11 || c.toNat == 12

theorem isClassChar_of_isWordChar {c : Char} (h : isWordChar c = true) : isClassChar c = true := by
  simp [isClassChar, h]

theorem not_isPySpace_of_isClassChar {c : Char} (h : isClassChar c = true) :
    isPySpace c = false := by
  simp only [isClassChar, isWordChar, Bool.or_eq_true, Bool.and_eq_true, decide_eq_true_eq,
    beq_iff_eq] at h
  simp only [isPySpace, Bool.or_eq_false_iff, beq_eq_false_iff_ne]
  omega

theorem ne_lparen_of_isClassChar {c : Char} (h : isClassChar c = true) : c ≠ '(' := by
  intro hc
  subst hc
  simp [isClassChar, isWordChar] at h

theorem not_isWordChar_of_not_isClassChar {c : Char} (h : isClassChar c = false) :
    isWordChar c = false := by
  simp only [isClassChar, Bool.or_eq_false_iff] at h
  exact h.1

/-! ### List helpers for the scanner proofs -/

theorem takeWhile_append_all {α : Type} (p : α → Bool) (l : List α) (x : α) (r : List α)
    (h : ∀ y ∈ l, p y = true) (hx : p x = false) :
    (l ++ x :: r).takeWhile p = l := by
  induction l with
  | nil => simp [List.takeWhile_cons, hx]
  | cons y l ih =>
    simp only [List.cons_append, List.takeWhile_cons, h y (List.mem_cons_self _ _), if_pos]
    rw [ih (fun z hz => h z (List.mem_cons_of_mem _ hz))]

theorem dropWhile_append_allcons {α : Type} (p : α → Bool) (l : List α) (x : α) (r : List α)
    (h : ∀ y ∈ l, p y = true) (hx : p x = false) :
    (l ++ x :: r).dropWhile p = x :: r := by
  induction l with
  | nil => simp [List.dropWhile_cons, hx]
  | cons y l ih =>
    simp only [List.cons_append, List.dropWhile_cons, h y (List.mem_cons_self _ _), if_pos]
    exact ih (fun z hz => h z (List.mem_cons_of_mem _ hz))

theorem dropWhile_append_allnil {α : Type} (p : α → Bool) (l r : List α)
    (h : ∀ y ∈ l, p y = true) :
    (l ++ r).dropWhile p = r.dropWhile p := by
  induction l with
  | nil => simp
  | cons y l ih =>
    simp only [List.cons_append, List.dropWhile_cons, h y (List.mem_cons_self _ _), if_pos]
    exact ih (fun z hz => h z (List.mem_cons_of_mem _ hz))

theorem dropWhile_append_ex {α : Type} (p : α → Bool) (l r : List α)
    (h : ∃ y ∈ l, p y = false) :
    (l ++ r).dropWhile p = l.dropWhile p ++ r := by
  induction l with
  | nil => obtain ⟨y, hy, _⟩ := h; simp at hy
  | cons y l ih =>
    simp only [List.cons_append, List.dropWhile_cons]
    by_cases hp : p y = true
    · rw [if_pos hp, if_pos hp]
      apply ih
      obtain ⟨z, hz, hpz⟩ := h
      rcases List.mem_cons.mp hz with rfl | hz'
      · rw [hp] at hpz; cases hpz
      · exact ⟨z, hz', hpz⟩
    · rw [if_neg hp, if_neg hp, List.cons_append]

theorem dropWhile_length_le {α : Type} (p : α → Bool) (l : List α) :
    (l.dropWhile p).length ≤ l.length := by
  induction l with
  | nil => simp
  | cons y l ih =>
    rw [List.dropWhile_cons]
    by_cases hp : p y = true
    · rw [if_pos hp]; simp; omega
    · rw [if_neg hp]

theorem getLast?_some_of_ne_nil {α : Type} : ∀ (l : List α), l ≠ [] → ∃ y, l.getLast? = some y := by
  intro l
  induction l with
  | nil => intro h; exact absurd rfl h
  | cons a as ih =>
    intro _
    cases as with
    | nil => exact ⟨a, rfl⟩
    | cons b bs =>
      rw [List.getLast?_cons_cons]
      exact ih (by simp)

theorem getLast?_cons_ne {α : Type} (a : α) (l : List α) (h : l ≠ []) :
    (a :: l).getLast? = l.getLast? := by
  cases l with
  | nil => exact absurd rfl h
  | cons b bs => exact List.getLast?_cons_cons

theorem suffix_getLast? {α : Type} {l₁ l₂ : List α} (h : l₁ <:+ l₂) (hne : l₁ ≠ []) :
    l₂.getLast? = l₁.getLast? := by
  obtain ⟨t, rfl⟩ := h
  obtain ⟨y, hy⟩ := getLast?_some_of_ne_nil l₁ hne
  rw [List.getLast?_append, hy]
  rfl

theorem mem_of_getLast? {α : Type} : ∀ {l : List α} {x : α}, l.getLast? = some x → x ∈ l := by
  intro l
  induction l with
  | nil => intro x h; cases h
  | cons a as ih =>
    intro x h
    cases as with
    | nil =>
      rcases Option.some.injEq _ _ ▸ h with h'
      simp only [List.getLast?_singleton, Option.some.injEq] at h
      exact h ▸ List.mem_singleton.mpr rfl
    | cons b bs =>
      rw [List.getLast?_cons_cons] at h
      exact List.mem_cons_of_mem _ (ih h)

/-! ### The call scan: `([A-Za-z0-9_\.]+)\s*\(` -/

/-- One pass of `re.finditer(CALL_RE, content)` with explicit fuel (the
fuel is always at least the list length, so the zero case is unreachable):
at each position, a maximal identifier run followed by optional whitespace
and `(` is a match whose capture is the run; scanning resumes after the
`(`; otherwise the scan advances one character. -/
def callScanAux : Nat → List Char → List (List Char)
  | 0, _ => []
  | _ + 1, [] => []
  | fuel + 1, c :: cs =>
    if isClassChar c then
      let run := (c :: cs).takeWhile isClassChar
      let r2 := ((c :: cs).dropWhile isClassChar).dropWhile isPySpace
      if r2.head? = some '(' then run :: callScanAux fuel r2.tail
      else callScanAux fuel cs
    else callScanAux fuel cs

/-- All captures of `CALL_RE.finditer(content)`. -/
def callScan (l : List Char) : List (List Char) := callScanAux l.length l

/-! ### The definition scans: `\b(def|function|fn)\s+([A-Za-z0-9_\.]+)\b`
and `\b(class|struct)\s+([A-Za-z0-9_\.]+)\b` -/

/-- Backtracking of the trailing `\b`: the greedy identifier run drops
trailing dots until it ends in a word character. -/
def stripDots (l : List Char) : List Char :=
  (l.reverse.dropWhile (fun c => c.toNat == 46)).reverse

/-- Attempt one alternative keyword at the current position (which is
already known to be at a word boundary): the keyword itself, `\s+`, then
the identifier capture with its trailing-`\b` backtracking. Returns the
capture and the remaining input (resumption is after the capture, the
trailing `\b` being zero-width). -/
def tryKwAt (kw : List Char) (l : List Char) : Option (List Char × List Char) :=
  if kw.isPrefixOf l then
    let r0 := l.drop kw.length
    let ws := r0.takeWhile isPySpace
    if ws.isEmpty then none
    else
      let r1 := r0.dropWhile isPySpace
      let name := stripDots (r1.takeWhile isClassChar)
      if name.isEmpty then none
      else some (name, r1.drop name.length)
  else none

/-- Ordered alternation over the keyword group. -/
def tryKws : List (List Char) → List Char → Option (List Char × List Char)
  | [], _ => none
  | kw :: rest, l =>
    match tryKwAt kw l with
    | some r => some r
    | none => tryKws rest l

/-- Fueled finditer for a definition pattern; `prev` is the character
before the current position (for the leading `\b`). -/
def scanDefsAux (kws : List (List Char)) : Nat → Option Char → List Char → List (List Char)
  | 0, _, _ => []
  | _ + 1, _, [] => []
  | fuel + 1, prev, c :: cs =>
    let boundary := match prev with
      | none => true
      | some p => !isWordChar p
    if boundary then
      match tryKws kws (c :: cs) with
      | some (name, rest) => name :: scanDefsAux kws fuel name.getLast? rest
      | none => scanDefsAux kws fuel (some c) cs
    else scanDefsAux kws fuel (some c) cs

/-- The keyword group of `FUNC_DEF_RE`, in source order. -/
def kwFUNC : List (List Char) := ["def".data, "function".data, "fn".data]

/-- The keyword group of `CLASS_DEF_RE`, in source order. -/
def kwCLS : List (List Char) := ["class".data, "struct".data]

/-- All captures of `FUNC_DEF_RE.finditer(content)`. -/
def funcDefScan (l : List Char) : List (List Char) := scanDefsAux kwFUNC l.length none l

/-- All captures of `CLASS_DEF_RE.finditer(content)`. -/
def classDefScan (l : List Char) : List (List Char) := scanDefsAux kwCLS l.length none l

/-- Fallback node used to render Python's `nodes[0]` (only ever read under
a non-emptiness guard). -/
def dfltNode : Node := { id := "", type := "", name := "", module := "" }

/-- Nodes of `parse_generic(content, module_name)` (ccg_builder.py lines
98-104): Function nodes from the definition scan, then Class nodes from
the type scan. -/
def pgNodes (content module_name : String) : List Node :=
  (funcDefScan content.data).map (fun nm =>
    { id := module_name ++ ":" ++ ⟨nm⟩, type := "function", name := ⟨nm⟩, module := module_name })
  ++ (classDefScan content.data).map (fun nm =>
    { id := module_name ++ ":" ++ ⟨nm⟩, type := "class", name := ⟨nm⟩, module := module_name })

/-- Edges of `parse_generic` (lines 105-111): one edge per call-scan
capture, from `nodes[0]`, appended only if the file produced any node. -/
def pgEdges (content module_name : String) : List Edge :=
  (callScan content.data).foldl (fun es called =>
    if (pgNodes content module_name).isEmpty then es
    else es ++ [{ frm := ((pgNodes content module_name).headD dfltNode).id, to_ := ⟨called⟩, label := "calls" }]) []

/-- Model of `parse_generic(content, module_name)` of ccg_builder.py (lines 95-112). -/
def parse_generic (content module_name : String) : ParseResult :=
  { nodes := pgNodes content module_name, edges := pgEdges content module_name }

/-! ### C8: per-file coarse attribution of heuristic call edges -/

theorem foldl_if_empty_map (L : List Node) (calls : List (List Char)) :
    ∀ es : List Edge,
      calls.foldl (fun es called =>
        if L.isEmpty then es
        else es ++ [{ frm := (L.headD dfltNode).id, to_ := ⟨called⟩, label := "calls" }]) es =
      if L.isEmpty then es
      else es ++ calls.map
        (fun called => { frm := (L.headD dfltNode).id, to_ := ⟨called⟩, label := "calls" }) := by
  induction calls with
  | nil => intro es; by_cases h : L.isEmpty <;> simp [h]
  | cons c rest ih =>
    intro es
    by_cases h : L.isEmpty = true
    · rw [List.foldl_cons, if_pos h, ih, if_pos h, if_pos h]
    · rw [List.foldl_cons, if_neg h, ih, if_neg h, if_neg h]
      simp

/-- Characterization of the heuristic extractor's edge list: empty when
the file produced no nodes, else exactly one edge per call-scan capture,
each attributed to the first node. -/
theorem parse_generic_edges_char (content mod : String) :
    ((parse_generic content mod).nodes = [] → (parse_generic content mod).edges = []) ∧
    (∀ n0, (parse_generic content mod).nodes.head? = some n0 →
      (parse_generic content mod).edges =
        (callScan content.data).map
          (fun called => { frm := n0.id, to_ := ⟨called⟩, label := "calls" })) := by
  constructor
  · intro h
    simp only [parse_generic] at h
    show pgEdges content mod = []
    unfold pgEdges
    rw [foldl_if_empty_map]
    rw [if_pos (by rw [h]; rfl)]
  · intro n0 h
    simp only [parse_generic] at h
    show pgEdges content mod = _
    unfold pgEdges
    rw [foldl_if_empty_map]
    cases hn : pgNodes content mod with
    | nil => rw [hn] at h; cases h
    | cons a l =>
      rw [hn] at h
      simp only [List.head?_cons, Option.some.injEq] at h
      subst h
      rw [if_neg (by simp)]
      simp

/-- C8: in the heuristic extractor, when a file produced at least one
definition or type node, every call-scan capture yields exactly one edge
whose `from` field is the id of the first discovered node (the edge list
is precisely the capture list mapped to edges from that node); when the
file produced no nodes, no edge is produced. -/
theorem C8_heuristic_single_scope (content mod : String) :
    ((parse_generic content mod).nodes = [] → (parse_generic content mod).edges = []) ∧
    (∀ n0, (parse_generic content mod).nodes.head? = some n0 →
      (parse_generic content mod).edges =
        (callScan content.data).map
          (fun called => { frm := n0.id, to_ := ⟨called⟩, label := "calls" })) :=
  parse_generic_edges_char content mod

/-- C8 witness: the file `"def foo(x): bar()"` produces the Function node
`m:foo` as its first node, and its two call-scan captures (`foo` from the
definition header and `bar`) become exactly two edges from `m:foo`. -/
theorem C8_witness :
    (parse_generic "def foo(x): bar()" "m").nodes.head? =
      some { id := "m:foo", type := "function", name := "foo", module := "m" } ∧
    (parse_generic "def foo(x): bar()" "m").edges =
      (callScan "def foo(x): bar()".data).map
        (fun called =>
          { frm := ({ id := "m:foo", type := "function", name := "foo", module := "m" } : Node).id,
            to_ := ⟨called⟩, label := "calls" }) :=
  ⟨by decide, (C8_heuristic_single_scope "def foo(x): bar()" "m").2
    { id := "m:foo", type := "function", name := "foo", module := "m" } (by decide)⟩
/-! ### C10: definition headers are also call-scan matches -/

theorem callScanAux_finds :
    ∀ (fuel : Nat) (a name b : List Char),
      (a ++ (name ++ '(' :: b)).length ≤ fuel →
      (∀ x, a.getLast? = some x → isClassChar x = false) →
      name ≠ [] →
      (∀ c ∈ name, isClassChar c = true) →
      name ∈ callScanAux fuel (a ++ (name ++ '(' :: b)) := by
  intro fuel
  induction fuel with
  | zero =>
    intro a name b hlen _ _ _
    exfalso
    simp [List.length_append] at hlen
  | succ fuel ih =>
    intro a name b hlen hlast hne hcls
    cases a with
    | nil =>
      cases name with
      | nil => exact absurd rfl hne
      | cons nc ncs =>
        have hnc : isClassChar nc = true := hcls nc (List.mem_cons_self _ _)
        have hparen : isClassChar '(' = false := by decide
        have e3 : (nc :: (ncs ++ '(' :: b)).takeWhile isClassChar = nc :: ncs := by
          rw [← List.cons_append]
          exact takeWhile_append_all _ _ _ _ hcls hparen
        have e1 : (nc :: (ncs ++ '(' :: b)).dropWhile isClassChar = '(' :: b := by
          rw [← List.cons_append]
          exact dropWhile_append_allcons _ _ _ _ hcls hparen
        have e2 : ('(' :: b).dropWhile isPySpace = '(' :: b := by
          rw [List.dropWhile_cons, if_neg (by decide)]
        simp only [List.nil_append, List.cons_append, callScanAux, List.append_eq, hnc, if_true]
        rw [e1, e2, List.head?_cons, if_pos rfl, e3, List.tail_cons]
        exact List.mem_cons_self _ _
    | cons c a' =>
      have rest_eq : ∀ L : List Char, (c :: a') ++ L = c :: (a' ++ L) := fun L => rfl
      by_cases hc : isClassChar c = true
      · -- the position starts an identifier run that lies inside `a`
        have hane : (c :: a') ≠ [] := by simp
        obtain ⟨x, hx⟩ := getLast?_some_of_ne_nil (c :: a') hane
        have hxnc : isClassChar x = false := hlast x hx
        have ha' : a' ≠ [] := by
          intro h
          subst h
          simp only [List.getLast?_singleton, Option.some.injEq] at hx
          subst hx
          rw [hc] at hxnc
          cases hxnc
        have hxa' : a'.getLast? = some x := by
          rw [← getLast?_cons_ne c a' ha']
          exact hx
        have hlast' : ∀ y, a'.getLast? = some y → isClassChar y = false := by
          intro y hy
          rw [hxa'] at hy
          cases hy
          exact hxnc
        have hxmem : x ∈ c :: a' := mem_of_getLast? hx
        have e1 : (c :: (a' ++ (name ++ '(' :: b))).dropWhile isClassChar =
            ((c :: a').dropWhile isClassChar) ++ (name ++ '(' :: b) := by
          rw [← List.cons_append]
          exact dropWhile_append_ex _ _ _ ⟨x, hxmem, hxnc⟩
        set a1 := (c :: a').dropWhile isClassChar with ha1def
        have ha1ne : a1 ≠ [] := by
          intro h
          have := List.dropWhile_eq_nil_iff.mp h x hxmem
          rw [hxnc] at this
          cases this
        have ha1last : a1.getLast? = some x := by
          rw [← suffix_getLast? (List.dropWhile_suffix _) ha1ne]
          exact hx
        have hlen' : (a' ++ (name ++ '(' :: b)).length ≤ fuel := by
          simp only [List.length_append, List.cons_append, List.length_cons] at hlen ⊢
          omega
        by_cases hallsp : ∀ y ∈ a1, isPySpace y = true
        · -- the rest of `a` is all whitespace: no `(` follows, advance
          have e2 : (a1 ++ (name ++ '(' :: b)).dropWhile isPySpace =
              (name ++ '(' :: b).dropWhile isPySpace := dropWhile_append_allnil _ _ _ hallsp
          have e3 : (name ++ '(' :: b).dropWhile isPySpace = name ++ '(' :: b := by
            cases name with
            | nil => exact absurd rfl hne
            | cons nc ncs =>
              rw [List.cons_append, List.dropWhile_cons,
                if_neg (by simp [not_isPySpace_of_isClassChar (hcls nc (List.mem_cons_self _ _))])]
          have hhd : (name ++ '(' :: b).head? ≠ some '(' := by
            cases name with
            | nil => exact absurd rfl hne
            | cons nc ncs =>
              rw [List.cons_append, List.head?_cons]
              intro hcon
              rcases Option.some.injEq _ _ ▸ hcon with h'
              simp only [Option.some.injEq] at hcon
              exact ne_lparen_of_isClassChar (hcls nc (List.mem_cons_self _ _)) hcon
          simp only [List.cons_append, callScanAux, List.append_eq, hc, if_true]
          rw [e1, e2, e3, if_neg hhd]
          exact ih a' name b hlen' hlast' hne hcls
        · -- the rest of `a` reaches a non-space character
          have hexsp : ∃ y ∈ a1, isPySpace y = false := by
            push_neg at hallsp
            obtain ⟨y, hy, hy2⟩ := hallsp
            exact ⟨y, hy, by simpa using hy2⟩
          have e2 : (a1 ++ (name ++ '(' :: b)).dropWhile isPySpace =
              (a1.dropWhile isPySpace) ++ (name ++ '(' :: b) :=
            dropWhile_append_ex _ _ _ hexsp
          set a2 := a1.dropWhile isPySpace with ha2def
          have ha2ne : a2 ≠ [] := by
            intro h
            obtain ⟨y, hy, hy2⟩ := hexsp
            have := List.dropWhile_eq_nil_iff.mp h y hy
            rw [hy2] at this
            cases this
          have ha2last : a2.getLast? = some x := by
            rw [← suffix_getLast? (List.dropWhile_suffix _) ha2ne]
            exact ha1last
          have ha2len : a2.length ≤ a1.length := dropWhile_length_le _ _
          have ha1len : a1.length ≤ (c :: a').length := by
            rw [ha1def]
            exact dropWhile_length_le _ _
          cases ha2 : a2 with
          | nil => exact absurd ha2 ha2ne
          | cons h2 t2 =>
            by_cases hpar : h2 = '('
            · -- a `(` is consumed inside `a`: the scan resumes after it
              subst hpar
              have hlen'' : (t2 ++ (name ++ '(' :: b)).length ≤ fuel := by
                have : a2.length = t2.length + 1 := by rw [ha2]; rfl
                simp only [List.length_append, List.length_cons] at hlen ⊢
                simp only [List.length_cons] at ha1len
                omega
              have hlast'' : ∀ y, t2.getLast? = some y → isClassChar y = false := by
                intro y hy
                have ht2ne : t2 ≠ [] := by
                  intro h
                  rw [h] at hy
                  cases hy
                rw [ha2, getLast?_cons_ne _ _ ht2ne] at ha2last
                rw [ha2last] at hy
                cases hy
                exact hxnc
              simp only [List.cons_append, callScanAux, List.append_eq, hc, if_true]
              rw [e1, e2, ha2, List.cons_append, List.head?_cons, if_pos rfl, List.tail_cons]
              exact List.mem_cons_of_mem _ (ih t2 name b hlen'' hlast'' hne hcls)
            · -- the non-space character is not `(`: no match here, advance
              simp only [List.cons_append, callScanAux, List.append_eq, hc, if_true]
              rw [e1, e2, ha2, List.cons_append, List.head?_cons,
                if_neg (fun h => hpar (Option.some.inj h))]
              exact ih a' name b hlen' hlast' hne hcls
      · -- not an identifier character: advance one position
        simp only [List.cons_append, callScanAux, hc, if_false, Bool.false_eq_true]
        exact ih a' name b
          (by simp only [List.length_append, List.cons_append, List.length_cons] at hlen ⊢; omega)
          (by
            intro y hy
            have ha'ne : a' ≠ [] := by
              intro h
              rw [h] at hy
              cases hy
            rw [← getLast?_cons_ne c a' ha'ne] at hy
            exact hlast y hy)
          hne hcls

/-- Every well-formed call-site shape `<ident>(` that follows a non-class
character (or starts the file) is captured by the call scan. -/
theorem callScan_finds (a name b : List Char)
    (hlast : ∀ x, a.getLast? = some x → isClassChar x = false)
    (hne : name ≠ []) (hcls : ∀ c ∈ name, isClassChar c = true) :
    name ∈ callScan (a ++ (name ++ '(' :: b)) :=
  callScanAux_finds _ a name b (le_refl _) hlast hne hcls
theorem isWordChar_ne_dot {c : Char} (h : isWordChar c = true) : (c.toNat == 46) = false := by
  simp only [isWordChar, Bool.or_eq_true, Bool.and_eq_true, decide_eq_true_eq,
    beq_iff_eq] at h
  simp only [beq_eq_false_iff_ne]
  omega

theorem not_isPySpace_of_isWordChar {c : Char} (h : isWordChar c = true) : isPySpace c = false :=
  not_isPySpace_of_isClassChar (isClassChar_of_isWordChar h)

theorem stripDots_of_getLast {l : List Char} {y : Char} (hy : l.getLast? = some y)
    (hw : isWordChar y = true) : stripDots l = l := by
  unfold stripDots
  have hrev : l.reverse.head? = some y := by rw [List.head?_reverse, hy]
  cases hl : l.reverse with
  | nil => rw [hl] at hrev; cases hrev
  | cons z t =>
    rw [hl] at hrev
    simp only [List.head?_cons, Option.some.injEq] at hrev
    subst hrev
    rw [List.dropWhile_cons, if_neg (by rw [isWordChar_ne_dot hw]; simp), ← hl,
      List.reverse_reverse]

/-- Evaluation of the first alternative of `FUNC_DEF_RE` at a well-formed
`def` header. -/
theorem tryKwAt_def_header (name b : List Char) (hne : name ≠ [])
    (hword : ∀ c ∈ name, isWordChar c = true) :
    tryKwAt "def".data ('d' :: 'e' :: 'f' :: ' ' :: (name ++ '(' :: b)) =
      some (name, '(' :: b) := by
  obtain ⟨y, hy⟩ := getLast?_some_of_ne_nil name hne
  have hyw : isWordChar y = true := hword y (mem_of_getLast? hy)
  cases name with
  | nil => exact absurd rfl hne
  | cons nc ncs =>
    have hnc : isWordChar nc = true := hword nc (List.mem_cons_self _ _)
    unfold tryKwAt
    rw [if_pos (by simp [List.isPrefixOf])]
    have hws : (' ' :: ((nc :: ncs) ++ '(' :: b)).takeWhile isPySpace =
        ' ' :: (((nc :: ncs) ++ '(' :: b)).takeWhile isPySpace := by
      rw [List.takeWhile_cons, if_pos (by decide)]
    have hr1 : (' ' :: ((nc :: ncs) ++ '(' :: b)).dropWhile isPySpace =
        (nc :: ncs) ++ '(' :: b := by
      rw [List.dropWhile_cons, if_pos (by decide), List.cons_append, List.dropWhile_cons,
        if_neg (by rw [not_isPySpace_of_isWordChar hnc]; simp), ← List.cons_append]
    have hrun : ((nc :: ncs) ++ '(' :: b).takeWhile isClassChar = nc :: ncs :=
      takeWhile_append_all _ _ _ _ (fun c hc => isClassChar_of_isWordChar (hword c hc))
        (by decide)
    have hdrop3 : List.drop "def".data.length
        ('d' :: 'e' :: 'f' :: ' ' :: ((nc :: ncs) ++ '(' :: b)) =
        ' ' :: ((nc :: ncs) ++ '(' :: b) := rfl
    simp only [hdrop3, hws, List.isEmpty_cons, Bool.false_eq_true, if_false, hr1, hrun,
      stripDots_of_getLast hy hyw, List.drop_left]

/-- The ordered alternation of `FUNC_DEF_RE` resolves to the `def`
alternative at a well-formed header. -/
theorem tryKws_def_header (name b : List Char) (hne : name ≠ [])
    (hword : ∀ c ∈ name, isWordChar c = true) :
    tryKws kwFUNC ('d' :: 'e' :: 'f' :: ' ' :: (name ++ '(' :: b)) =
      some (name, '(' :: b) := by
  unfold kwFUNC tryKws
  rw [tryKwAt_def_header name b hne hword]

/-- The definition scan finds at least one capture in any content that
embeds a well-formed `def` header after a non-identifier character (the
header's own keyword may be swallowed by an earlier match, but some match
is always produced). -/
theorem scanDefsAux_ne_nil :
    ∀ (fuel : Nat) (prev : Option Char) (a name b : List Char),
      (a ++ ('d' :: 'e' :: 'f' :: ' ' :: (name ++ '(' :: b))).length ≤ fuel →
      (a = [] → (prev = none ∨ ∃ p, prev = some p ∧ isWordChar p = false)) →
      (∀ x, a.getLast? = some x → isClassChar x = false) →
      name ≠ [] →
      (∀ c ∈ name, isWordChar c = true) →
      scanDefsAux kwFUNC fuel prev (a ++ ('d' :: 'e' :: 'f' :: ' ' :: (name ++ '(' :: b))) ≠ [] := by
  intro fuel
  induction fuel with
  | zero =>
    intro prev a name b hlen _ _ _ _
    exfalso
    simp [List.length_append] at hlen
  | succ fuel ih =>
    intro prev a name b hlen hprev hlast hne hword
    cases a with
    | nil =>
      simp only [List.nil_append, scanDefsAux]
      rcases hprev rfl with rfl | ⟨p, rfl, hp⟩
      · rw [if_pos rfl, tryKws_def_header name b hne hword]
        simp
      · rw [if_pos (by simp [hp]), tryKws_def_header name b hne hword]
        simp
    | cons c a' =>
      simp only [List.cons_append, scanDefsAux, List.append_eq]
      have hnext : (a' ++ ('d' :: 'e' :: 'f' :: ' ' :: (name ++ '(' :: b))).length ≤ fuel := by
        simp only [List.length_append, List.length_cons] at hlen ⊢
        omega
      have hprev' : a' = [] → (some c = none ∨ ∃ p, some c = some p ∧ isWordChar p = false) := by
        intro h
        subst h
        refine Or.inr ⟨c, rfl, ?_⟩
        have := hlast c rfl
        exact not_isWordChar_of_not_isClassChar this
      have hlast' : ∀ x, a'.getLast? = some x → isClassChar x = false := by
        intro x hx
        have ha'ne : a' ≠ [] := by
          intro h
          rw [h] at hx
          cases hx
        rw [← getLast?_cons_ne c a' ha'ne] at hx
        exact hlast x hx
      rcases prev with _ | p
      · rw [if_pos rfl]
        cases htk : tryKws kwFUNC (c :: (a' ++ ('d' :: 'e' :: 'f' :: ' ' :: (name ++ '(' :: b)))) with
        | none => exact ih (some c) a' name b hnext hprev' hlast' hne hword
        | some pr => simp
      · by_cases hw : isWordChar p = true
        · rw [if_neg (by simp [hw])]
          exact ih (some c) a' name b hnext hprev' hlast' hne hword
        · rw [if_pos (by simp [Bool.not_eq_true] at hw; simp [hw])]
          cases htk : tryKws kwFUNC (c :: (a' ++ ('d' :: 'e' :: 'f' :: ' ' :: (name ++ '(' :: b)))) with
          | none => exact ih (some c) a' name b hnext hprev' hlast' hne hword
          | some pr => simp

/-- When the `def` header opens the file, the definition scan's first
capture is the defined name. -/
theorem funcDefScan_header (name b : List Char) (hne : name ≠ [])
    (hword : ∀ c ∈ name, isWordChar c = true) :
    ∃ t, funcDefScan ('d' :: 'e' :: 'f' :: ' ' :: (name ++ '(' :: b)) = name :: t := by
  unfold funcDefScan
  cases hl : ('d' :: 'e' :: 'f' :: ' ' :: (name ++ '(' :: b)).length with
  | zero => simp at hl
  | succ n =>
    simp only [scanDefsAux]
    rw [if_pos trivial, tryKws_def_header name b hne hword]
    exact ⟨_, rfl⟩
/-- C10: a definition header `def name(` is itself matched by the call
scan, so a file containing it always has at least one node, and (for any
first node) an additional call edge from the file's first node to the
defined name is emitted; when the definition opens the file, the first
node is the defined function itself, making that edge self-referential.
The header may appear after any prefix whose last character is not an
identifier character. -/
theorem C10_definition_sites_are_call_sites
    (a name b : List Char) (mod : String)
    (hlast : ∀ x, a.getLast? = some x → isClassChar x = false)
    (hne : name ≠ [])
    (hword : ∀ c ∈ name, isWordChar c = true) :
    name ∈ callScan (a ++ ('d' :: 'e' :: 'f' :: ' ' :: (name ++ '(' :: b))) ∧
    (parse_generic ⟨a ++ ('d' :: 'e' :: 'f' :: ' ' :: (name ++ '(' :: b))⟩ mod).nodes ≠ [] ∧
    (∀ n0, (parse_generic ⟨a ++ ('d' :: 'e' :: 'f' :: ' ' :: (name ++ '(' :: b))⟩ mod).nodes.head? =
        some n0 →
      ({ frm := n0.id, to_ := ⟨name⟩, label := "calls" } : Edge) ∈
        (parse_generic ⟨a ++ ('d' :: 'e' :: 'f' :: ' ' :: (name ++ '(' :: b))⟩ mod).edges) ∧
    (a = [] → (parse_generic ⟨a ++ ('d' :: 'e' :: 'f' :: ' ' :: (name ++ '(' :: b))⟩ mod).nodes.head? =
      some { id := mod ++ ":" ++ ⟨name⟩, type := "function", name := ⟨name⟩, module := mod }) := by
  have hcall : name ∈ callScan (a ++ ('d' :: 'e' :: 'f' :: ' ' :: (name ++ '(' :: b))) := by
    have hassoc : a ++ ('d' :: 'e' :: 'f' :: ' ' :: (name ++ '(' :: b)) =
        (a ++ ['d', 'e', 'f', ' ']) ++ (name ++ '(' :: b) := by
      simp
    rw [hassoc]
    refine callScan_finds _ _ _ ?_ hne
      (fun c hc => isClassChar_of_isWordChar (hword c hc))
    intro x hx
    rw [List.getLast?_append] at hx
    simp only [List.getLast?_cons_cons, List.getLast?_singleton, Option.or_some,
      Option.some.injEq] at hx
    subst hx
    decide
  have hdata : (⟨a ++ ('d' :: 'e' :: 'f' :: ' ' :: (name ++ '(' :: b))⟩ : String).data =
      a ++ ('d' :: 'e' :: 'f' :: ' ' :: (name ++ '(' :: b)) := rfl
  have hfd : funcDefScan (a ++ ('d' :: 'e' :: 'f' :: ' ' :: (name ++ '(' :: b))) ≠ [] :=
    scanDefsAux_ne_nil _ none a name b (le_refl _) (fun _ => Or.inl rfl) hlast hne hword
  have hnodes : (parse_generic ⟨a ++ ('d' :: 'e' :: 'f' :: ' ' :: (name ++ '(' :: b))⟩ mod).nodes ≠ [] := by
    intro hnil
    simp only [parse_generic, pgNodes, hdata] at hnil
    rw [List.append_eq_nil] at hnil
    exact hfd (List.map_eq_nil_iff.mp hnil.1)
  refine ⟨hcall, hnodes, ?_, ?_⟩
  · intro n0 h0
    have hchar := (parse_generic_edges_char ⟨a ++ ('d' :: 'e' :: 'f' :: ' ' :: (name ++ '(' :: b))⟩ mod).2 n0 h0
    rw [hchar]
    exact List.mem_map.mpr ⟨name, by rw [hdata]; exact hcall, rfl⟩
  · intro ha
    subst ha
    obtain ⟨t, ht⟩ := funcDefScan_header name b hne hword
    simp only [parse_generic, pgNodes, hdata, List.nil_append, ht, List.map_cons,
      List.cons_append, List.head?_cons]

/-- C10 witness: the file `"def foo(x)"` yields the call-scan capture
`foo` from its own definition header and the self-referential edge
`m:foo → foo`. -/
theorem C10_witness :
    "foo".data ∈ callScan ([] ++ ('d' :: 'e' :: 'f' :: ' ' :: ("foo".data ++ '(' :: "x)".data))) ∧
    ({ frm := "m:foo", to_ := "foo", label := "calls" } : Edge) ∈
      (parse_generic ⟨[] ++ ('d' :: 'e' :: 'f' :: ' ' :: ("foo".data ++ '(' :: "x)".data))⟩ "m").edges := by
  have h := C10_definition_sites_are_call_sites [] "foo".data "x)".data "m"
    (by intro x hx; simp at hx) (by decide) (by decide)
  refine ⟨h.1, ?_⟩
  have hh := h.2.2.2 rfl
  have hmem := h.2.2.1 _ hh
  exact hmem
/-! ## Repository scan and graph assembly (ccg_builder.py, build_ccg_from_repo) -/

/-- Decoded content of a repository file: the raw text (fed to the
heuristic extractor) and the outcome of `ast.parse` on it (fed to the
precise extractor when the extension is `.py`; `none` models a syntax
error). -/
structure FileData where
  raw : String
  pyAst : Option (List PyTree)

/-- One filesystem entry of the repository tree: its path relative to the
repository root (the module name), its basename, and its content —
`none` models `read_text` raising (unreadable bytes, or a directory
matched by the glob). -/
structure RepoFile where
  relPath : String
  name : String
  read : Option FileData

/-- Computation of `pathlib.Path.suffix` of a basename: the part from the last dot, but
empty when the dot is the first or the last character or absent. -/
def pySuffix (name : String) : String :=
  let l := name.data
  let after := l.reverse.takeWhile (fun c => !(c == '.'))
  if after.length = l.length then ""
  else
    let i := l.length - 1 - after.length
    if 0 < i ∧ i < l.length - 1 then ⟨l.drop i⟩ else ""

/-- The filter implied by `repo_path.rglob("*.*")`: only entries whose
basename contains a dot are enumerated at all. -/
def rglobMatchesAll (name : String) : Bool := name.data.contains '.'

/-- The reserved output filenames skipped by the scan (line 129). -/
def reservedNames : List String := ["docs.md", "ccg.json", "cached_docs.json"]

/-- Extension dispatch (lines 131-148): `.py` (lower-cased suffix) goes to
the precise extractor, everything else to the heuristic extractor (the
tree-sitter branch also calls `parse_generic`). -/
def dispatchParse (f : RepoFile) : ParseResult :=
  match f.read with
  | none => { nodes := [], edges := [] }
  | some data =>
    if pyLower (pySuffix f.name) == ".py" then parse_python data.pyAst f.relPath
    else parse_generic data.raw f.relPath

/-- Accumulator of the scan: the consolidated node and edge lists plus the
global `seen_nodes` id set (modelled as the insertion-ordered list of ids,
which always equals `nodes.map id`). -/
structure BuildState where
  nodes : List Node
  edges : List Edge
  seen_nodes : List String

/-- The per-file node merge (lines 150-154): a node is appended only if
its id was never seen before, anywhere in the scan. -/
def insertParsedNodes (st : BuildState) (ns : List Node) : BuildState :=
  ns.foldl (fun acc n =>
    if n.id ∈ acc.seen_nodes then acc
    else { acc with nodes := acc.nodes ++ [n], seen_nodes := acc.seen_nodes ++ [n.id] }) st

/-- Processing of one enumerated entry (lines 129-156): skip reserved
names, skip unreadable files, otherwise dispatch and merge (nodes
deduplicated, edges appended unconditionally). -/
def buildStep (st : BuildState) (f : RepoFile) : BuildState :=
  if f.name ∈ reservedNames then st
  else
    match f.read with
    | none => st
    | some _ =>
      let parsed := dispatchParse f
      let st1 := insertParsedNodes st parsed.nodes
      { st1 with edges := st1.edges ++ parsed.edges }

/-- Model of `build_ccg_from_repo(repo_path)` over the modelled file tree. -/
def build_ccg_from_repo (files : List RepoFile) : ParseResult :=
  let st := (files.filter (fun f => rglobMatchesAll f.name)).foldl buildStep
    { nodes := [], edges := [], seen_nodes := [] }
  { nodes := st.nodes, edges := st.edges }

/-- The files the scan actually dispatches to an extractor: enumerated by
the glob, not reserved, and readable. -/
def processedFiles_code (files : List RepoFile) : List RepoFile :=
  (files.filter (fun f => rglobMatchesAll f.name)).filter
    (fun f => !decide (f.name ∈ reservedNames) && f.read.isSome)

/-- Modelled from the spec: the claimed enumeration — every file under the
root, excluding exactly the reserved output filenames, with unreadable
files skipped (no glob restriction). -/
def processedFiles_spec (files : List RepoFile) : List RepoFile :=
  files.filter (fun f => !decide (f.name ∈ reservedNames) && f.read.isSome)

/-- The per-file node contribution of one enumerated entry. -/
def scanNodesOf (f : RepoFile) : List Node :=
  if f.name ∈ reservedNames then []
  else
    match f.read with
    | none => []
    | some _ => (dispatchParse f).nodes

/-- The stream of nodes the scan feeds to the assembler, in scan order. -/
def allScanNodes (files : List RepoFile) : List Node :=
  (files.filter (fun f => rglobMatchesAll f.name)).flatMap scanNodesOf
/-! ### C5: node-id uniqueness and first-wins deduplication -/

theorem insertParsedNodes_char :
    ∀ (ns : List Node) (st : BuildState),
      st.seen_nodes = st.nodes.map (fun n => n.id) →
      ((insertParsedNodes st ns).seen_nodes =
        (insertParsedNodes st ns).nodes.map (fun n => n.id)) ∧
      (((st.nodes.map (fun n => n.id)).Nodup →
        ((insertParsedNodes st ns).nodes.map (fun n => n.id)).Nodup)) ∧
      ((insertParsedNodes st ns).edges = st.edges) ∧
      (∀ s, (insertParsedNodes st ns).nodes.find? (fun n => n.id == s) =
        (st.nodes ++ ns).find? (fun n => n.id == s)) := by
  intro ns
  induction ns with
  | nil =>
    intro st hseen
    exact ⟨hseen, fun h => h, rfl, fun s => by simp [insertParsedNodes]⟩
  | cons n rest ih =>
    intro st hseen
    by_cases hmem : n.id ∈ st.seen_nodes
    · have hstep : insertParsedNodes st (n :: rest) = insertParsedNodes st rest := by
        simp [insertParsedNodes, hmem]
      rw [hstep]
      obtain ⟨h1, h2, h3, h4⟩ := ih st hseen
      refine ⟨h1, h2, h3, fun s => ?_⟩
      rw [h4 s]
      rw [List.find?_append, List.find?_append]
      by_cases hs : n.id = s
      · subst hs
        rw [hseen] at hmem
        obtain ⟨m, hm, hid⟩ := List.mem_map.mp hmem
        have : (st.nodes.find? (fun x => x.id == n.id)).isSome := by
          rw [List.find?_isSome]
          exact ⟨m, hm, by simp [hid]⟩
        obtain ⟨v, hv⟩ := Option.isSome_iff_exists.mp this
        rw [hv]
        rfl
      · have hb : (n.id == s) = false := by simp [hs]
        rw [List.find?_cons, hb]
    · have hstep : insertParsedNodes st (n :: rest) =
          insertParsedNodes { st with nodes := st.nodes ++ [n], seen_nodes := st.seen_nodes ++ [n.id] } rest := by
        simp [insertParsedNodes, hmem]
      rw [hstep]
      have hseen' : ({ st with nodes := st.nodes ++ [n], seen_nodes := st.seen_nodes ++ [n.id] } : BuildState).seen_nodes = ({ st with nodes := st.nodes ++ [n], seen_nodes := st.seen_nodes ++ [n.id] } : BuildState).nodes.map (fun n => n.id) := by
        show st.seen_nodes ++ [n.id] = (st.nodes ++ [n]).map (fun n => n.id)
        rw [List.map_append, hseen]
        rfl
      obtain ⟨h1, h2, h3, h4⟩ := ih { st with nodes := st.nodes ++ [n], seen_nodes := st.seen_nodes ++ [n.id] } hseen'
      refine ⟨h1, fun hnd => h2 ?_, h3, fun s => ?_⟩
      · simp only [List.map_append]
        rw [List.nodup_append]
        refine ⟨hnd, by simp, ?_⟩
        intro x hx hy
        simp only [List.map_cons, List.map_nil, List.mem_singleton] at hy
        subst hy
        rw [hseen] at hmem
        exact hmem hx
      · rw [h4 s]
        simp only [List.append_assoc, List.singleton_append]

theorem buildStep_char (f : RepoFile) (st : BuildState)
    (hseen : st.seen_nodes = st.nodes.map (fun n => n.id)) :
    ((buildStep st f).seen_nodes = (buildStep st f).nodes.map (fun n => n.id)) ∧
    (((st.nodes.map (fun n => n.id)).Nodup →
      ((buildStep st f).nodes.map (fun n => n.id)).Nodup)) ∧
    (∀ s, (buildStep st f).nodes.find? (fun n => n.id == s) =
      (st.nodes ++ scanNodesOf f).find? (fun n => n.id == s)) := by
  unfold buildStep scanNodesOf
  by_cases hres : f.name ∈ reservedNames
  · rw [if_pos hres, if_pos hres]
    exact ⟨hseen, fun h => h, fun s => by simp⟩
  · rw [if_neg hres, if_neg hres]
    cases hread : f.read with
    | none => exact ⟨hseen, fun h => h, fun s => by simp⟩
    | some data =>
      obtain ⟨h1, h2, _, h4⟩ := insertParsedNodes_char (dispatchParse f).nodes st hseen
      exact ⟨h1, h2, h4⟩

theorem build_fold_char :
    ∀ (fs : List RepoFile) (st : BuildState),
      st.seen_nodes = st.nodes.map (fun n => n.id) →
      ((fs.foldl buildStep st).seen_nodes =
        (fs.foldl buildStep st).nodes.map (fun n => n.id)) ∧
      (((st.nodes.map (fun n => n.id)).Nodup →
        ((fs.foldl buildStep st).nodes.map (fun n => n.id)).Nodup)) ∧
      (∀ s, (fs.foldl buildStep st).nodes.find? (fun n => n.id == s) =
        (st.nodes ++ fs.flatMap scanNodesOf).find? (fun n => n.id == s)) := by
  intro fs
  induction fs with
  | nil => intro st hseen; exact ⟨hseen, fun h => h, fun s => by simp⟩
  | cons f rest ih =>
    intro st hseen
    obtain ⟨s1, s2, s3⟩ := buildStep_char f st hseen
    obtain ⟨h1, h2, h4⟩ := ih (buildStep st f) s1
    refine ⟨h1, fun hnd => h2 (s2 hnd), fun s => ?_⟩
    rw [List.foldl_cons] at *
    rw [h4 s]
    simp only [List.flatMap_cons, List.find?_append, s3 s]
    cases List.find? (fun n => n.id == s) st.nodes <;> rfl

/-- C5: for every (modelled) repository input, the full build produces no
two nodes with the same id, and for every id the node kept in the graph is
exactly the first node with that id in the scan stream — later duplicates
are dropped entirely, never merged. -/
theorem C5_node_ids_unique_first_wins (files : List RepoFile) :
    (((build_ccg_from_repo files).nodes.map (fun n => n.id)).Nodup) ∧
    (∀ s : String, (build_ccg_from_repo files).nodes.find? (fun n => n.id == s) =
      (allScanNodes files).find? (fun n => n.id == s)) := by
  obtain ⟨_, h2, h4⟩ := build_fold_char (files.filter (fun f => rglobMatchesAll f.name))
    { nodes := [], edges := [], seen_nodes := [] } rfl
  exact ⟨h2 (by simp), fun s => by
    have := h4 s
    simpa [build_ccg_from_repo, allScanNodes] using this⟩
/-! ### C6: what the scan actually enumerates -/

/-- A dot-less file the spec's enumeration contract would dispatch. -/
def makefileEntry : RepoFile :=
  { relPath := "Makefile", name := "Makefile", read := some { raw := "def foo(x)", pyAst := none } }

/-- An unreadable entry. -/
def badEntry : RepoFile := { relPath := "data.bin", name := "data.bin", read := none }

/-- A readable, syntactically empty Python file. -/
def pyEntry : RepoFile := { relPath := "a.py", name := "a.py", read := some { raw := "", pyAst := some [] } }

/-- C6 (counterexample): a repository consisting of the single readable,
non-reserved file `Makefile` (whose content would yield a Function node if
dispatched) is not enumerated at all — `rglob("*.*")` only yields names
containing a dot — so the build dispatches nothing and produces an empty
graph, whereas the claimed enumeration dispatches the file. -/
theorem C6_counterexample :
    (processedFiles_code [makefileEntry]).length = 0 ∧
    (processedFiles_spec [makefileEntry]).map (fun f => f.name) = ["Makefile"] ∧
    build_ccg_from_repo [makefileEntry] = { nodes := [], edges := [] } ∧
    (parse_generic "def foo(x)" "Makefile").nodes ≠ [] := by
  refine ⟨rfl, rfl, rfl, by decide⟩

theorem processedFiles_code_eq (files : List RepoFile) :
    processedFiles_code files = files.filter
      (fun f => rglobMatchesAll f.name && (!decide (f.name ∈ reservedNames) && f.read.isSome)) := by
  unfold processedFiles_code
  rw [List.filter_filter]
  exact List.filter_congr (fun f _ => Bool.and_comm _ _)

theorem buildStep_skip (st : BuildState) (f : RepoFile)
    (h : (!decide (f.name ∈ reservedNames) && f.read.isSome) = false) : buildStep st f = st := by
  unfold buildStep
  by_cases h1 : f.name ∈ reservedNames
  · rw [if_pos h1]
  · rw [if_neg h1]
    cases hr : f.read with
    | none => rfl
    | some d =>
      exfalso
      rw [hr] at h
      simp [h1] at h

theorem buildStep_unreadable (st : BuildState) (f : RepoFile) (h : f.read = none) :
    buildStep st f = st :=
  buildStep_skip st f (by rw [h]; simp)

theorem build_fold_skip :
    ∀ (fs : List RepoFile) (st : BuildState),
      fs.foldl buildStep st =
        (fs.filter (fun f => !decide (f.name ∈ reservedNames) && f.read.isSome)).foldl
          buildStep st := by
  intro fs
  induction fs with
  | nil => intro st; rfl
  | cons f rest ih =>
    intro st
    rw [List.foldl_cons, List.filter_cons]
    by_cases hp : (!decide (f.name ∈ reservedNames) && f.read.isSome) = true
    · rw [if_pos hp, List.foldl_cons]
      exact ih (buildStep st f)
    · rw [if_neg hp, buildStep_skip st f (by simpa using hp)]
      exact ih st

/-- C6 (amended): the scan dispatches exactly the files that (a) are
enumerated by `rglob("*.*")` — their basename contains a dot — (b) are
not named as reserved outputs, and (c) are readable; the build is fully
determined by those files, and inserting an unreadable file anywhere
leaves the build unchanged (a single unreadable file never aborts the
scan). -/
theorem C6_amended (files : List RepoFile) :
    (processedFiles_code files = files.filter
      (fun f => rglobMatchesAll f.name && (!decide (f.name ∈ reservedNames) && f.read.isSome))) ∧
    (build_ccg_from_repo files = build_ccg_from_repo (processedFiles_code files)) ∧
    (∀ (xs ys : List RepoFile) (bad : RepoFile), bad.read = none →
      build_ccg_from_repo (xs ++ bad :: ys) = build_ccg_from_repo (xs ++ ys)) := by
  refine ⟨processedFiles_code_eq files, ?_, ?_⟩
  · unfold build_ccg_from_repo
    have hsub : (processedFiles_code files).filter (fun f => rglobMatchesAll f.name) =
        processedFiles_code files := by
      rw [List.filter_eq_self]
      intro f hf
      unfold processedFiles_code at hf
      exact (List.mem_filter.mp (List.mem_of_mem_filter hf)).2
    rw [hsub]
    rw [build_fold_skip]
    rfl
  · intro xs ys bad hbad
    unfold build_ccg_from_repo
    rw [List.filter_append, List.filter_append, List.filter_cons]
    by_cases hb : rglobMatchesAll bad.name = true
    · rw [if_pos hb]
      rw [List.foldl_append, List.foldl_append, List.foldl_cons,
        buildStep_unreadable _ bad hbad]
    · rw [if_neg hb]

/-- C6 witness: inserting an unreadable binary entry between no files and
one Python file leaves the build unchanged. -/
theorem C6_witness :
    badEntry.read = none ∧
    build_ccg_from_repo ([] ++ badEntry :: [pyEntry]) = build_ccg_from_repo ([] ++ [pyEntry]) :=
  ⟨rfl, (C6_amended []).2.2 [] [pyEntry] badEntry rfl⟩

/-! ## Cleanup allow-list (post_process.py, process_repo lines 59-70) -/

/-- Allow-list `ALLOWED_FILES` of post_process.py (line 10). -/
def ALLOWED_FILES : List String := ["docs.md", "ccg.json", "cached_docs.json"]

/-- The cleanup loop over the names of the entries of a repository working
directory, with every removal succeeding: an entry survives exactly when
its name is on the allow-list. -/
def cleanupDir (entries : List String) : List String :=
  entries.filter (fun e => e ∈ ALLOWED_FILES)

/-- C9: running the cleanup twice in a row is idempotent — after each of
the two runs the directory holds exactly the allow-listed files among
those that existed. -/
theorem C9_cleanup_idempotent (entries : List String) :
    cleanupDir (cleanupDir entries) = cleanupDir entries ∧
    (∀ e, e ∈ cleanupDir entries ↔ e ∈ entries ∧ e ∈ ALLOWED_FILES) ∧
    (∀ e, e ∈ cleanupDir (cleanupDir entries) ↔ e ∈ entries ∧ e ∈ ALLOWED_FILES) := by
  have h1 : cleanupDir (cleanupDir entries) = cleanupDir entries := by
    unfold cleanupDir
    rw [List.filter_filter]
    exact List.filter_congr (fun e _ => by cases h : decide (e ∈ ALLOWED_FILES) <;> simp [h])
  have h2 : ∀ e, e ∈ cleanupDir entries ↔ e ∈ entries ∧ e ∈ ALLOWED_FILES := by
    intro e
    unfold cleanupDir
    rw [List.mem_filter]
    simp
  exact ⟨h1, h2, fun e => by rw [h1]; exact h2 e⟩

end CCG
